import Mathlib

/-!
Shallow embedding of the `Quaeki/Emulator` repository (Python), covering the
VFS engine of `src/Emulator_5/Emulator_5.py` (the richest variant) and, where a
claim cites it, the earlier loader of `src/Emulator_3/Emulator_3.py`.

Python strings are modelled as Lean `String` (a wrapper around `List Char`);
`bytes` as `List Nat` (each entry `< 256`); Python `dict` (insertion-ordered)
as an association list `List (String × VFSNode)` with first-match lookup and
replace-or-append assignment, which matches dict semantics because keys are
never inserted twice by a different route.  In-place mutation of the node tree
is modelled by explicit state passing: every operation that mutates the tree
returns the rebuilt root.  Timestamps (`datetime.now()`) are an opaque `now :
Nat` parameter threaded into the operations that use them.
-/

namespace Emulator

/-! ### String helpers (models of the Python `str` methods used by the code) -/

/-- ASCII whitespace, approximating the set stripped by Python `str.strip()`
(the inputs in scope are ASCII). -/
def pyIsSpace (c : Char) : Bool :=
  c = ' ' ∨ c = '\t' ∨ c = '\n' ∨ c = '\r' ∨ c = '\x0b' ∨ c = '\x0c'

/-- Model of Python `str.strip()` on the character list. -/
def stripL (s : List Char) : List Char :=
  ((s.dropWhile pyIsSpace).reverse.dropWhile pyIsSpace).reverse

/-- Model of Python `str.strip()`. -/
def pyStrip (s : String) : String := ⟨stripL s.data⟩

/-- Model of Python `str.lower()` restricted to ASCII letters (the only
letters the code compares after lowering). -/
def lowerChar (c : Char) : Char :=
  if 'A' ≤ c ∧ c ≤ 'Z' then Char.ofNat (c.toNat + 32) else c

/-- Model of Python `str.lower()` (ASCII). -/
def pyLower (s : String) : String := ⟨s.data.map lowerChar⟩

/-- Model of Python `str.split(sep)` for a single-character separator, at the
character-list level: `"".split("/") == [""]`, `"/".split("/") == ["", ""]`. -/
def splitCharL (sep : Char) : List Char → List (List Char)
  | [] => [[]]
  | c :: rest =>
    if c = sep then [] :: splitCharL sep rest
    else
      match splitCharL sep rest with
      | [] => [[c]]
      | g :: gs => (c :: g) :: gs

/-- Model of Python `path.split("/")`. -/
def splitSlash (s : String) : List String :=
  (splitCharL '/' s.data).map (fun l => ⟨l⟩)

/-- Model of Python `s.split(",")`. -/
def splitComma (s : String) : List String :=
  (splitCharL ',' s.data).map (fun l => ⟨l⟩)

/-- Model of Python `"/".join(parts)` at the character-list level. -/
def joinSlashL : List (List Char) → List Char
  | [] => []
  | [x] => x
  | x :: y :: rest => x ++ '/' :: joinSlashL (y :: rest)

/-- Model of Python `"/".join(parts)`. -/
def joinSlash (parts : List String) : String := ⟨joinSlashL (parts.map String.data)⟩

/-- Model of Python `path.startswith("/")`. -/
def startsWithSlash (s : String) : Bool :=
  match s.data with
  | '/' :: _ => true
  | _ => false

/-- Whether `pat` occurs as a contiguous sublist of `s` (used to state that an
error message does or does not mention a row number). -/
def hasSubL (s pat : List Char) : Bool :=
  match s with
  | [] => pat = []
  | _ :: rest => s.take pat.length = pat ∨ hasSubL rest pat

/-- Whether `pat` occurs as a substring of `s`. -/
def hasSub (s pat : String) : Bool := hasSubL s.data pat.data

/-! ### The node tree (`VFSNode`, `Emulator_5.py` lines 17-29) -/

inductive NodeKind where
  | dir : NodeKind
  | file : NodeKind
deriving DecidableEq, Repr

/-- `VFSNode(kind, children, content, mode, mtime)`: a directory or file node.
`children` is meaningful for directories, `content` for files; `mode` is the
octal permission value and `mtime` the (opaque) timestamp. -/
inductive VFSNode where
  | mk (kind : NodeKind) (children : List (String × VFSNode))
       (content : List Nat) (mode : Nat) (mtime : Nat) : VFSNode

def VFSNode.kind : VFSNode → NodeKind
  | .mk k _ _ _ _ => k

def VFSNode.children : VFSNode → List (String × VFSNode)
  | .mk _ cs _ _ _ => cs

def VFSNode.content : VFSNode → List Nat
  | .mk _ _ c _ _ => c

def VFSNode.mode : VFSNode → Nat
  | .mk _ _ _ m _ => m

def VFSNode.mtime : VFSNode → Nat
  | .mk _ _ _ _ t => t

/-- `node.is_dir()`. -/
def VFSNode.is_dir (n : VFSNode) : Bool := n.kind = .dir

/-- `node.is_file()`. -/
def VFSNode.is_file (n : VFSNode) : Bool := n.kind = .file

/-- `cur.children.get(name)`: first-match lookup in the (insertion-ordered)
children mapping. -/
def getEntry : List (String × VFSNode) → String → Option VFSNode
  | [], _ => none
  | (n, c) :: rest, s => if n = s then some c else getEntry rest s

/-- `cur.children[name] = node`: replace the existing entry in place, or
append a new one (Python dict assignment keeps the key's position). -/
def setEntry : List (String × VFSNode) → String → VFSNode → List (String × VFSNode)
  | [], s, v => [(s, v)]
  | (n, c) :: rest, s, v =>
    if n = s then (s, v) :: rest else (n, c) :: setEntry rest s v

/-- Raw structural reachability: follow the children mapping along a segment
path (no directory check).  `lookupPath t [] = some t`. -/
def lookupPath : VFSNode → List String → Option VFSNode
  | t, [] => some t
  | t, s :: rest =>
    match getEntry t.children s with
    | none => none
    | some c => lookupPath c rest

/-- A fresh directory node with the given mode (builder creations use 0o755,
`VFS.__init__` uses 0o755 for the root). -/
def newDir (mode : Nat) (mtime : Nat := 0) : VFSNode := .mk .dir [] [] mode mtime

/-- A fresh file node (`VFSNode(kind="file", content=..., mode=0o644)`). -/
def newFile (content : List Nat) (mode : Nat) (mtime : Nat := 0) : VFSNode :=
  .mk .file [] content mode mtime

/-! ### Path resolution (`VFS.resolve` / `VFS.resolve_parent`, lines 94-133) -/

/-- The segment-normalization loop shared by `resolve` (inline skipping of
`""`/`"."`) and `resolve_parent` (pre-filtered input): `".."` pops the last
accumulated segment if any, `""`/`"."` are skipped, anything else is
appended. -/
def normSegs (start : List String) (segs : List String) : List String :=
  segs.foldl
    (fun parts seg =>
      if seg = "" ∨ seg = "." then parts
      else if seg = ".." then parts.dropLast
      else parts ++ [seg])
    start

/-- The tree walk both resolvers perform: from `node`, require the current
node to be a directory before each step, then follow the child by name.  The
final node is returned without a directory check. -/
def walk : VFSNode → List String → Option VFSNode
  | node, [] => some node
  | node, s :: rest =>
    if node.is_dir then
      match getEntry node.children s with
      | none => none
      | some c => walk c rest
    else none

/-- The starting segment sequence: empty for an absolute path, the working
directory otherwise (shared by both resolvers). -/
def rpStart (cwd_parts : List String) (path : String) : List String :=
  if startsWithSlash path then [] else cwd_parts

/-- The canonical segments `VFS.resolve` computes. -/
def resolveParts (cwd_parts : List String) (path : String) : List String :=
  normSegs (rpStart cwd_parts path) (splitSlash path)

/-- `VFS.resolve(cwd_parts, path)`: canonical segments plus the designated
node (or `none`). -/
def resolve (root : VFSNode) (cwd_parts : List String) (path : String) :
    List String × Option VFSNode :=
  (resolveParts cwd_parts path, walk root (resolveParts cwd_parts path))

/-- `[s for s in path.split("/") if s not in ("", ".")]` in
`resolve_parent`. -/
def rpSegs (path : String) : List String :=
  (splitSlash path).filter (fun s => ¬(s = "" ∨ s = "."))

/-- The parent segments `VFS.resolve_parent` computes (the normalization
loop over all but the final filtered segment). -/
def rpParts (cwd_parts : List String) (path : String) : List String :=
  normSegs (rpStart cwd_parts path) (rpSegs path).dropLast

/-- `VFS.resolve_parent(cwd_parts, path)`: parent segments, parent node (or
`none`) and trailing basename (or `none` when the path has no segments). -/
def resolve_parent (root : VFSNode) (cwd_parts : List String) (path : String) :
    List String × Option VFSNode × Option String :=
  match (rpSegs path).getLast? with
  | none => (rpStart cwd_parts path, none, none)
  | some basename =>
    (rpParts cwd_parts path, walk root (rpParts cwd_parts path), some basename)

/-! ### Byte encodings used by the builder and by `tac` -/

/-- UTF-8 encoding of one character (model of `str.encode("utf-8")`,
standard RFC 3629 encoder). -/
def utf8EncodeChar (c : Char) : List Nat :=
  let n := c.toNat
  if n < 0x80 then [n]
  else if n < 0x800 then [0xC0 + n / 64, 0x80 + n % 64]
  else if n < 0x10000 then [0xE0 + n / 4096, 0x80 + n / 64 % 64, 0x80 + n % 64]
  else [0xF0 + n / 0x40000, 0x80 + n / 4096 % 64, 0x80 + n / 64 % 64, 0x80 + n % 64]

/-- Model of Python `s.encode("utf-8")`. -/
def utf8Encode (s : String) : List Nat :=
  s.data.foldr (fun c acc => utf8EncodeChar c ++ acc) []

/-- Model of Python `bytes.decode("utf-8")` (strict): rejects invalid leads,
bad continuations, overlong forms, surrogates and out-of-range points. -/
def utf8Decode? : List Nat → Option (List Char)
  | [] => some []
  | b :: rest =>
    if b < 0x80 then
      (utf8Decode? rest).map (fun cs => Char.ofNat b :: cs)
    else if b < 0xC2 then none
    else if b < 0xE0 then
      match rest with
      | b2 :: r =>
        if 0x80 ≤ b2 ∧ b2 < 0xC0 then
          (utf8Decode? r).map (fun cs => Char.ofNat ((b - 0xC0) * 64 + (b2 - 0x80)) :: cs)
        else none
      | [] => none
    else if b < 0xF0 then
      match rest with
      | b2 :: b3 :: r =>
        let lo2 := if b = 0xE0 then 0xA0 else 0x80
        let hi2 := if b = 0xED then 0xA0 else 0xC0
        if (lo2 ≤ b2 ∧ b2 < hi2) ∧ (0x80 ≤ b3 ∧ b3 < 0xC0) then
          (utf8Decode? r).map (fun cs =>
            Char.ofNat ((b - 0xE0) * 4096 + (b2 - 0x80) * 64 + (b3 - 0x80)) :: cs)
        else none
      | _ => none
    else if b < 0xF5 then
      match rest with
      | b2 :: b3 :: b4 :: r =>
        let lo2 := if b = 0xF0 then 0x90 else 0x80
        let hi2 := if b = 0xF4 then 0x90 else 0xC0
        if (lo2 ≤ b2 ∧ b2 < hi2) ∧ (0x80 ≤ b3 ∧ b3 < 0xC0) ∧ (0x80 ≤ b4 ∧ b4 < 0xC0) then
          (utf8Decode? r).map (fun cs =>
            Char.ofNat ((b - 0xF0) * 0x40000 + (b2 - 0x80) * 4096 + (b3 - 0x80) * 64 + (b4 - 0x80)) :: cs)
        else none
      | _ => none
    else none

/-- Model of Python `s.encode("ascii")`; the error text abbreviates CPython's
`UnicodeEncodeError` message (no theorem inspects it). -/
def asciiEncode (s : String) : Except String (List Nat) :=
  if s.data.all (fun c => c.toNat < 128) then .ok (s.data.map Char.toNat)
  else .error "'ascii' codec can't encode character: ordinal not in range(128)"

/-- Value of one base64 alphabet byte (`A-Z a-z 0-9 + /`). -/
def b64Val (b : Nat) : Option Nat :=
  if 65 ≤ b ∧ b ≤ 90 then some (b - 65)
  else if 97 ≤ b ∧ b ≤ 122 then some (b - 71)
  else if 48 ≤ b ∧ b ≤ 57 then some (b + 4)
  else if b = 43 then some 62
  else if b = 47 then some 63
  else none

/-- Main loop of CPython 3.11's `binascii.a2b_base64` in non-strict mode (what
`base64.b64decode` calls): non-alphabet bytes are skipped, `=` with at least
two chars in the current quad ends the data once total padding reaches the
quad, and a trailing quad of one char (resp. two or three unpadded chars) is
the row-unnumbered `binascii.Error` shown.  State: `quad_pos`, `leftchar`,
`pads`, data-character `count`, reversed output accumulator. -/
def b64Loop : List Nat → Nat → Nat → Nat → Nat → List Nat → Except String (List Nat)
  | [], qp, _, _, count, out =>
    if qp = 0 then .ok out.reverse
    else if qp = 1 then
      .error ("Invalid base64-encoded string: number of data characters (" ++
        toString count ++ ") cannot be 1 more than a multiple of 4")
    else .error "Incorrect padding"
  | b :: rest, qp, lc, pads, count, out =>
    if b = 61 then
      if 2 ≤ qp then
        if 4 ≤ qp + (pads + 1) then .ok out.reverse
        else b64Loop rest qp lc (pads + 1) count out
      else b64Loop rest qp lc pads count out
    else
      match b64Val b with
      | none => b64Loop rest qp lc pads count out
      | some v =>
        match qp with
        | 0 => b64Loop rest 1 v 0 (count + 1) out
        | 1 => b64Loop rest 2 (v % 16) 0 (count + 1) ((lc * 4 + v / 16) :: out)
        | 2 => b64Loop rest 3 (v % 4) 0 (count + 1) ((lc * 16 + v / 4) :: out)
        | _ => b64Loop rest 0 0 0 (count + 1) ((lc * 64 + v) :: out)

/-- Model of Python `base64.b64decode(bytes)` (default non-strict mode). -/
def b64decode (input : List Nat) : Except String (List Nat) :=
  b64Loop input 0 0 0 0 []

/-! ### The VFS and its Tree Builder (`VFS`, `Emulator_5.py` lines 32-81) -/

/-- `VFS.__init__`: root directory node (mode 0o755), `_raw_bytes` and
`_name` unset. -/
structure VFS where
  root : VFSNode
  raw_bytes : Option (List Nat)
  name : Option String

def VFS.init : VFS := ⟨newDir 0o755, none, none⟩

/-- `VFS._ensure_dir(parts)`, threading the rebuilt root: walk `parts` from
`cur`, creating missing directories with mode 0o755; an existing non-directory
on the chain raises naming `"/".join(parts)` — the full argument, not the
conflicting component.  (On that error nothing has been created yet: creation
only starts at the first missing name, below which every name is missing too,
so returning the caller's unchanged tree on error matches the in-place Python
mutation.) -/
def ensureDir (fullParts : List String) : VFSNode → List String → Except String VFSNode
  | cur, [] => .ok cur
  | cur, name :: rest =>
    match getEntry cur.children name with
    | none =>
      match ensureDir fullParts (newDir 0o755) rest with
      | .error e => .error e
      | .ok child =>
        .ok (VFSNode.mk cur.kind (setEntry cur.children name child) cur.content cur.mode cur.mtime)
    | some node =>
      if node.kind ≠ .dir then
        .error ("Путь конфликтует с файлом: " ++ joinSlash fullParts)
      else
        match ensureDir fullParts node rest with
        | .error e => .error e
        | .ok child =>
          .ok (VFSNode.mk cur.kind (setEntry cur.children name child) cur.content cur.mode cur.mtime)

/-- Rebuild the node at an existing segment path with `f` (model of mutating
a node reached through the children mappings; every use is on a path that was
just ensured or resolved, so the missing-child case never fires). -/
def updateAt : VFSNode → List String → (VFSNode → VFSNode) → VFSNode
  | t, [], f => f t
  | t, s :: rest, f =>
    match getEntry t.children s with
    | none => t
    | some c => VFSNode.mk t.kind (setEntry t.children s (updateAt c rest f)) t.content t.mode t.mtime

/-- One data row of the tabular description, holding the `row.get(col) or ""`
values the loader reads. -/
structure Row where
  path : String
  type : String
  encoding : String
  content : String

/-- Content decoding for a file row (`Emulator_5.py` lines 61-66).  Note the
base64 branch has no try/except in `Emulator_5`: the `binascii.Error` (and any
`ascii`-encode error) propagates as-is, with no row number. -/
def decodeContent (enc content : String) (i : Nat) : Except String (List Nat) :=
  if enc = "" ∨ enc = "utf8" ∨ enc = "text" then .ok (utf8Encode content)
  else if enc = "base64" ∨ enc = "b64" ∨ enc = "binary" then
    match asciiEncode content with
    | .error e => .error e
    | .ok bs => b64decode bs
  else .error ("CSV: неизвестная кодировка '" ++ enc ++ "' (строка " ++ toString i ++ ")")

/-- One iteration of the `Emulator_5` loader loop for the row numbered `i`,
returning the tree as left by the in-place mutations together with the raised
error, if any.  Field normalization, the empty path/type check, the `dir` row
(`_ensure_dir` then `node.mode = node.mode or 0o755`), the `file` row
(`_ensure_dir(parts[:-1])` before the filename check and before content
decoding — so ensured directories survive a later decode error), and the
unknown-type error follow lines 45-69. -/
def processRow (root : VFSNode) (i : Nat) (row : Row) : VFSNode × Option String :=
  let p := pyStrip row.path
  let t := pyLower (pyStrip row.type)
  let enc := pyLower (pyStrip row.encoding)
  if p = "" ∨ t = "" then
    (root, some ("CSV: пустой path/type (строка " ++ toString i ++ ")"))
  else
    let parts := (splitSlash p).filter (fun s => ¬(s = "" ∨ s = "."))
    if t = "dir" then
      match ensureDir parts root parts with
      | .error e => (root, some e)
      | .ok root' =>
        (updateAt root' parts (fun n =>
          VFSNode.mk n.kind n.children n.content (if n.mode = 0 then 0o755 else n.mode) n.mtime),
         none)
    else if t = "file" then
      match ensureDir parts.dropLast root parts.dropLast with
      | .error e => (root, some e)
      | .ok root' =>
        match parts.getLast? with
        | none => (root', some ("CSV: некорректный путь к файлу (строка " ++ toString i ++ ")"))
        | some filename =>
          match decodeContent enc row.content i with
          | .error e => (root', some e)
          | .ok bytes =>
            (updateAt root' parts.dropLast (fun n =>
              VFSNode.mk n.kind (setEntry n.children filename (newFile bytes 0o644)) n.content n.mode n.mtime),
             none)
    else (root, some ("CSV: неизвестный type '" ++ t ++ "' (строка " ++ toString i ++ ")"))

/-- The loader loop over the data rows, numbering them from `i` and stopping
at (but keeping the partial tree of) the first error. -/
def loadRows (root : VFSNode) (i : Nat) : List Row → VFSNode × Option String
  | [] => (root, none)
  | row :: rest =>
    match processRow root i row with
    | (root', some e) => (root', some e)
    | (root', none) => loadRows root' (i + 1) rest

/-- `VFS.load_from_csv` (`Emulator_5.py` lines 39-69), with the file read,
the UTF-8 decode of the raw bytes and the `csv.DictReader` parse treated as
the external loader (the core consumes `data` and the parsed `rows`).
`_raw_bytes` and `_name` are assigned before any row is processed;
`enumerate(reader, start=2)` numbers the first data row 2.  The result pairs
the VFS as the in-place mutations leave it with the raised error, if any. -/
def load_from_csv (v : VFS) (data : List Nat) (name : String) (rows : List Row) :
    VFS × Option String :=
  let pair := loadRows v.root 2 rows
  (⟨pair.1, some data, some name⟩, pair.2)

/-! ### The `Emulator_3.py` variant of the loader (lines 36-68): nodes carry
no mode, the empty-parts check for a file row precedes `_ensure_dir`, and the
base64 decode is wrapped in try/except re-raising with the row number.  It is
modelled over the same node type with every mode field 0 (unused there). -/

/-- `Emulator_3` content decoding: both the `ascii` encode and the base64
decode errors are re-raised as `CSV: не удалось декодировать base64 (строка
i): e`. -/
def decodeContent_v3 (enc content : String) (i : Nat) : Except String (List Nat) :=
  if enc = "" ∨ enc = "utf8" ∨ enc = "text" then .ok (utf8Encode content)
  else if enc = "base64" ∨ enc = "b64" ∨ enc = "binary" then
    match
      (match asciiEncode content with
       | .error e => (.error e : Except String (List Nat))
       | .ok bs => b64decode bs) with
    | .error e =>
      .error ("CSV: не удалось декодировать base64 (строка " ++ toString i ++ "): " ++ e)
    | .ok bytes => .ok bytes
  else .error ("CSV: неизвестная кодировка '" ++ enc ++ "' (строка " ++ toString i ++ ")")

/-- One iteration of the `Emulator_3` loader loop (lines 42-68). -/
def processRow_v3 (root : VFSNode) (i : Nat) (row : Row) : VFSNode × Option String :=
  let p := pyStrip row.path
  let t := pyLower (pyStrip row.type)
  let enc := pyLower (pyStrip row.encoding)
  if p = "" ∨ t = "" then
    (root, some ("CSV: пустой path/type (строка " ++ toString i ++ ")"))
  else
    let parts := (splitSlash p).filter (fun s => ¬(s = "" ∨ s = "."))
    if t = "dir" then
      match ensureDir parts root parts with
      | .error e => (root, some e)
      | .ok root' => (root', none)
    else if t = "file" then
      match parts.getLast? with
      | none => (root, some ("CSV: некорректный путь к файлу (строка " ++ toString i ++ ")"))
      | some filename =>
        match ensureDir parts.dropLast root parts.dropLast with
        | .error e => (root, some e)
        | .ok root' =>
          match decodeContent_v3 enc row.content i with
          | .error e => (root', some e)
          | .ok bytes =>
            (updateAt root' parts.dropLast (fun n =>
              VFSNode.mk n.kind (setEntry n.children filename (newFile bytes 0)) n.content n.mode n.mtime),
             none)
    else (root, some ("CSV: неизвестный type '" ++ t ++ "' (строка " ++ toString i ++ ")"))

/-- The `Emulator_3` loader loop over the data rows. -/
def loadRows_v3 (root : VFSNode) (i : Nat) : List Row → VFSNode × Option String
  | [] => (root, none)
  | row :: rest =>
    match processRow_v3 root i row with
    | (root', some e) => (root', some e)
    | (root', none) => loadRows_v3 root' (i + 1) rest

/-- `VFS.load_from_csv` of `Emulator_3.py` (lines 36-68). -/
def load_from_csv_v3 (v : VFS) (data : List Nat) (name : String) (rows : List Row) :
    VFS × Option String :=
  let pair := loadRows_v3 v.root 2 rows
  (⟨pair.1, some data, some name⟩, pair.2)

/-! ### Permission Engine (`ShellEmulatorGUI._chmod_apply_symbolic`,
`Emulator_5.py` lines 339-413) -/

/-- The class shift: owner 6, group 3, other 0. -/
def classShift (cls : Char) : Nat :=
  if cls = 'u' then 6 else if cls = 'g' then 3 else 0

/-- `bits_for(perms, cls)` (lines 357-371): permission bits of one class for
the given perm characters; `X` contributes execute only if the target is a
directory or `cur_mode` (the mode at the start of the clause application) has
any execute bit. -/
def bits_for (cur_mode : Nat) (is_dir : Bool) (perms : List Char) (cls : Char) : Nat :=
  let shift := classShift cls
  perms.foldl
    (fun mask ch =>
      if ch = 'r' then mask ||| (0o4 <<< shift)
      else if ch = 'w' then mask ||| (0o2 <<< shift)
      else if ch = 'x' then mask ||| (0o1 <<< shift)
      else if ch = 'X' then
        if is_dir || ((cur_mode &&& 0o111) != 0) then mask ||| (0o1 <<< shift) else mask
      else mask)
    0

/-- `class_mask_all` (lines 373-380). -/
def classMaskAll (classes : List Char) : Nat :=
  classes.foldl
    (fun m cls =>
      m ||| (if cls = 'u' then 0o700 else if cls = 'g' then 0o070
             else if cls = 'o' then 0o007 else 0o777))
    0

/-- `("a" in classes) or (cls in classes)`: whether a class is selected. -/
def selClass (classes : List Char) (cls : Char) : Bool :=
  classes.contains 'a' || classes.contains cls

/-- Clear the bits of `mask` from `m` (Python `m & ~mask` on unbounded
ints). -/
def clearBits (m mask : Nat) : Nat := m - (m &&& mask)

/-- A clause class character (`while i < len(clause) and clause[i] in "ugoa"`). -/
def isClassChar (c : Char) : Bool := c = 'u' || c = 'g' || c = 'o' || c = 'a'

/-- `ShellEmulatorGUI._chmod_apply_symbolic(cur_mode, clause, is_dir)`:
parse `[classes]op perms` and apply one symbolic clause, masking the result
to 9 bits. -/
def chmodApplySymbolic (cur_mode : Nat) (clause : String) (is_dir : Bool) :
    Except String Nat :=
  let classes0 := clause.data.takeWhile isClassChar
  let classes := if classes0 = [] then ['a'] else classes0
  match clause.data.dropWhile isClassChar with
  | [] => .error ("неверный синтаксис chmod: '" ++ clause ++ "'")
  | op :: rest2 =>
    if ¬(op = '+' ∨ op = '-' ∨ op = '=') then
      .error ("неверный синтаксис chmod: '" ++ clause ++ "'")
    else if rest2 = [] then
      .error ("неверный синтаксис chmod: '" ++ clause ++ "'")
    else if ¬ rest2.all (fun c => c = 'r' ∨ c = 'w' ∨ c = 'x' ∨ c = 'X') then
      .error ("неверные права в chmod: '" ++ String.mk rest2 ++ "'")
    else
      let cma := classMaskAll classes
      let selBits :=
        (if selClass classes 'u' then bits_for cur_mode is_dir rest2 'u' else 0) |||
        (if selClass classes 'g' then bits_for cur_mode is_dir rest2 'g' else 0) |||
        (if selClass classes 'o' then bits_for cur_mode is_dir rest2 'o' else 0)
      let new_mode :=
        if op = '=' then clearBits cur_mode cma ||| (selBits &&& cma)
        else if op = '+' then cur_mode ||| selBits
        else clearBits cur_mode selBits
      .ok (new_mode &&& 0o777)

/-- The inner clause loop of symbolic `cmd_chmod` (lines 452-456) for one
node: thread the running mode through the clauses, then mask the stored
result to 9 bits. -/
def applyClauses (clauses : List String) (is_dir : Bool) (m : Nat) : Except String Nat :=
  match clauses.foldlM (fun cur clause => chmodApplySymbolic cur clause is_dir) m with
  | .error e => .error e
  | .ok cur => .ok (cur &&& 0o777)

/-- Total version of `applyClauses` used once clause syntax is known valid
(the error of `chmodApplySymbolic` depends only on the clause text, never on
the mode or the directory flag, so the fallback branch is unreachable then). -/
def applyClausesD (clauses : List String) (m : Nat) (is_dir : Bool) : Nat :=
  match applyClauses clauses is_dir m with
  | .ok r => r
  | .error _ => m

mutual
/-- The recursive arm of `_chmod_walk` plus the per-node assignment of
`cmd_chmod`: rewrite every node's mode in the subtree with `f` (evaluated
per node on its own mode and directory flag), descending into the children
of directories. -/
def chmodSetAll (f : Nat → Bool → Nat) : VFSNode → VFSNode
  | .mk k cs content m t =>
    if k = .dir then .mk k (chmodSetAllKids f cs) content (f m (decide (k = .dir))) t
    else .mk k cs content (f m (decide (k = .dir))) t

/-- `chmodSetAll` over a children mapping. -/
def chmodSetAllKids (f : Nat → Bool → Nat) :
    List (String × VFSNode) → List (String × VFSNode)
  | [] => []
  | (n, c) :: rest => (n, chmodSetAll f c) :: chmodSetAllKids f rest
end

/-- `_chmod_walk` plus the per-node assignment of `cmd_chmod` (lines 408-413
with 443-444 / 452-456): the walked nodes are the node itself and, when
`recursive` and the node is a directory, its whole subtree in pre-order; each
walked node's mode is rewritten with `f` on its own mode and directory
flag. -/
def chmodSet (f : Nat → Bool → Nat) (recursive : Bool) (node : VFSNode) : VFSNode :=
  if recursive ∧ node.kind = .dir then chmodSetAll f node
  else VFSNode.mk node.kind node.children node.content (f node.mode node.is_dir) node.mtime

/-- Parse a string of octal digits (called only after the all-octal-digits
check, mirroring `int(mode_spec, 8)`). -/
def parseOctal (s : List Char) : Nat :=
  s.foldl (fun a c => a * 8 + (c.toNat - 48)) 0

/-! ### Command handlers and dispatcher (`Emulator_5.py` lines 208-500).
Textual output is not modelled (only the mutated state and the success /
terminate flags are in scope for the claims); `now` is the opaque current
timestamp. -/

/-- The engine state a command acts on: the VFS and the working directory. -/
structure EmuState where
  vfs : VFS
  cwd_parts : List String

/-- `cmd_chmod` (lines 416-461).  A symbolic spec whose clause syntax is bad
fails with no tree change: in the source the `ValueError` is raised while
processing the first walked node, before any assignment, and clause-syntax
errors do not depend on the node, so catching it at the command level leaves
the tree as it was. -/
def cmd_chmod (args : List String) (s : EmuState) : EmuState × Bool :=
  match args with
  | [] => (s, false)
  | a0 :: rest =>
    let recursive := a0 = "-R"
    let rem := if a0 = "-R" then rest else a0 :: rest
    match rem with
    | [mode_spec, target] =>
      let pr := resolve s.vfs.root s.cwd_parts target
      match pr.2 with
      | none => (s, false)
      | some node =>
        let is_numeric := (mode_spec.length = 3 ∨ mode_spec.length = 4) ∧
          mode_spec.data.all (fun c => '0' ≤ c ∧ c ≤ '7')
        if is_numeric then
          let mode_val := parseOctal mode_spec.data &&& 0o777
          let root' := updateAt s.vfs.root pr.1 (chmodSet (fun _ _ => mode_val) recursive)
          ({ s with vfs := { s.vfs with root := root' } }, true)
        else
          let clauses := ((splitComma mode_spec).map pyStrip).filter (fun c => ¬ c = "")
          if clauses = [] then (s, false)
          else
            match applyClauses clauses node.is_dir node.mode with
            | .error _ => (s, false)
            | .ok _ =>
              let root' := updateAt s.vfs.root pr.1 (chmodSet (applyClausesD clauses) recursive)
              ({ s with vfs := { s.vfs with root := root' } }, true)
    | _ => (s, false)

/-- `cmd_touch` (lines 320-337): validate the parent directory, then refresh
the mtime of an existing target or create an empty 0o644 file. -/
def cmd_touch (now : Nat) (args : List String) (s : EmuState) : EmuState × Bool :=
  match args with
  | [target] =>
    let rp := resolve_parent s.vfs.root s.cwd_parts target
    match rp.2.1, rp.2.2 with
    | some parent_node, some basename =>
      if ¬ parent_node.is_dir then (s, false)
      else
        let r := resolve s.vfs.root s.cwd_parts target
        match r.2 with
        | some _ =>
          let root' := updateAt s.vfs.root r.1
            (fun n => VFSNode.mk n.kind n.children n.content n.mode now)
          ({ s with vfs := { s.vfs with root := root' } }, true)
        | none =>
          let root' := updateAt s.vfs.root rp.1
            (fun p => VFSNode.mk p.kind (setEntry p.children basename (newFile [] 0o644 now))
              p.content p.mode p.mtime)
          ({ s with vfs := { s.vfs with root := root' } }, true)
    | _, _ => (s, false)
  | _ => (s, false)

/-- `cmd_cd` (lines 275-285). -/
def cmd_cd (args : List String) (s : EmuState) : EmuState × Bool :=
  match args with
  | [target] =>
    match resolve s.vfs.root s.cwd_parts target with
    | (parts, some node) =>
      if node.is_dir then ({ s with cwd_parts := parts }, true) else (s, false)
    | (_, none) => (s, false)
  | _ => (s, false)

/-- The flag-character scan inside `cmd_ls` (lines 212-222): `l` and `a`
accumulate, anything else is a fatal unknown option. -/
def lsScanFlags (long all_ : Bool) : List Char → Option (Bool × Bool)
  | [] => some (long, all_)
  | c :: cs =>
    if c = 'l' then lsScanFlags true all_ cs
    else if c = 'a' then lsScanFlags long true cs
    else none

/-- The leading-flags loop of `cmd_ls`: consume arguments that start with
`-` and are not the bare `"-"`. -/
def lsFlags (long all_ : Bool) : List String → Option (Bool × Bool × List String)
  | [] => some (long, all_, [])
  | a :: rest =>
    match a.data with
    | '-' :: f :: fs =>
      match lsScanFlags long all_ (f :: fs) with
      | none => none
      | some (l', a') => lsFlags l' a' rest
    | _ => some (long, all_, a :: rest)

/-- `cmd_ls` (lines 208-273), reduced to its state/flag contract: listing
output is print-only and the tree is never written. -/
def cmd_ls (args : List String) (s : EmuState) : EmuState × Bool :=
  match lsFlags false false args with
  | none => (s, false)
  | some (_, _, rest) =>
    let target := match rest with | [] => "." | t :: _ => t
    match (resolve s.vfs.root s.cwd_parts target).2 with
    | none => (s, false)
    | some _ => (s, true)

/-- The line-splitting of `cmd_tac` (line 311): the effect of
`re.findall(r'.*?\n|.+\Z', text, re.DOTALL)` — maximal chunks each ending
with a newline, plus the trailing newline-less remainder if non-empty
(built right-to-left). -/
def tacChunks (s : List Char) : List (List Char) :=
  s.foldr
    (fun c acc =>
      if c = '\n' then ['\n'] :: acc
      else
        match acc with
        | [] => [[c]]
        | ch :: rest => (c :: ch) :: rest)
    []

/-- The lines `cmd_tac` prints (lines 311-316): the chunks reversed, each
with its trailing newline stripped when present. -/
def tacOutput (text : List Char) : List (List Char) :=
  (tacChunks text).reverse.map
    (fun ch => if ch.getLast? = some '\n' then ch.dropLast else ch)

/-- `cmd_tac` (lines 293-317), reduced to its state/flag contract (the lines
printed are `tacOutput` of the decoded text). -/
def cmd_tac (args : List String) (s : EmuState) : EmuState × Bool :=
  match args with
  | [target] =>
    match (resolve s.vfs.root s.cwd_parts target).2 with
    | none => (s, false)
    | some node =>
      if ¬ node.is_file then (s, false)
      else
        match utf8Decode? node.content with
        | none => (s, false)
        | some _ => (s, true)
  | _ => (s, false)

/-- `ShellEmulatorGUI.exec` after tokenization (lines 463-500): route by the
first token; returns `(state, ok, terminate)`.  Shell tokenization (`shlex`)
is the collaborator producing `tokens`; an empty token list is a silent
no-op. -/
def dispatch (now : Nat) (tokens : List String) (s : EmuState) : EmuState × Bool × Bool :=
  match tokens with
  | [] => (s, true, false)
  | cmd :: args =>
    if cmd = "ls" then let r := cmd_ls args s; (r.1, r.2, false)
    else if cmd = "cd" then let r := cmd_cd args s; (r.1, r.2, false)
    else if cmd = "date" then (s, true, false)
    else if cmd = "tac" then let r := cmd_tac args s; (r.1, r.2, false)
    else if cmd = "touch" then let r := cmd_touch now args s; (r.1, r.2, false)
    else if cmd = "chmod" then let r := cmd_chmod args s; (r.1, r.2, false)
    else if cmd = "vfs-info" then (s, true, false)
    else if cmd = "pwd" then (s, true, false)
    else if cmd = "exit" then (s, true, true)
    else (s, false, false)

/-! ### Script Runner (`_run_startup_script_safe` / `_process_next_script_line`,
`Emulator_5.py` lines 513-552) -/

/-- `[(i + 1, line) for i, line in enumerate(lines)]`: 1-indexed line
numbering. -/
def numberLines : Nat → List String → List (Nat × String)
  | _, [] => []
  | i, l :: rest => (i, l) :: numberLines (i + 1) rest

/-- What one script run leaves behind: the final state, the lines that were
echoed and executed (in order, with their 1-indexed numbers), whether the
completion message was printed, and the halting line number when the run
stopped on a failed command. -/
structure RunResult (σ : Type) where
  final : σ
  execd : List (Nat × String)
  completed : Bool
  stopped : Option Nat

/-- `_process_next_script_line`, iterated to the end of the run: a line whose
stripped form is empty or starts with `#` is skipped without execution; on
`terminate` the run returns at once (no completion message); on failure it
reports the line's number and stops; otherwise it schedules the next line.
The command layer is the `exec` argument (instantiated by `dispatch` ∘
tokenize in the program). -/
def processLines {σ : Type} (exec : String → σ → σ × Bool × Bool) :
    σ → List (Nat × String) → RunResult σ
  | s, [] => ⟨s, [], true, none⟩
  | s, (lineno, line) :: rest =>
    let stripped := pyStrip line
    if stripped = "" ∨ stripped.data.head? = some '#' then
      processLines exec s rest
    else
      let r := exec line s
      if r.2.2 then ⟨r.1, [(lineno, line)], false, none⟩
      else if ¬ r.2.1 then ⟨r.1, [(lineno, line)], false, some lineno⟩
      else
        let res := processLines exec r.1 rest
        ⟨res.final, (lineno, line) :: res.execd, res.completed, res.stopped⟩

/-- A whole script run (`_run_startup_script_safe` after a successful read):
number the lines from 1, then replay. -/
def runScript {σ : Type} (exec : String → σ → σ × Bool × Bool) (s : σ)
    (lines : List String) : RunResult σ :=
  processLines exec s (numberLines 1 lines)

/-! ## Lemmas: splitting, joining and segment normalization -/

theorem splitCharL_ne_nil (sep : Char) (l : List Char) : splitCharL sep l ≠ [] := by
  cases l with
  | nil => simp [splitCharL]
  | cons c rest =>
    simp only [splitCharL]
    split
    · simp
    · cases h : splitCharL sep rest <;> simp

theorem splitCharL_no_sep (sep : Char) :
    ∀ l g, g ∈ splitCharL sep l → sep ∉ g := by
  intro l
  induction l with
  | nil =>
    intro g hg
    simp [splitCharL] at hg
    simp [hg]
  | cons c rest ih =>
    intro g hg
    simp only [splitCharL] at hg
    by_cases hc : c = sep
    · rw [if_pos hc] at hg
      rcases List.mem_cons.mp hg with h | h
      · simp [h]
      · exact ih g h
    · rw [if_neg hc] at hg
      cases h : splitCharL sep rest with
      | nil => exact absurd h (splitCharL_ne_nil sep rest)
      | cons g0 gs =>
        rw [h] at hg
        rcases List.mem_cons.mp hg with h1 | h1
        · subst h1
          intro hmem
          rcases List.mem_cons.mp hmem with h2 | h2
          · exact hc h2.symm
          · exact ih g0 (h ▸ List.mem_cons_self g0 gs) h2
        · exact ih g (h ▸ List.mem_cons_of_mem g0 h1)

theorem splitCharL_of_no_sep (sep : Char) (x : List Char) (h : sep ∉ x) :
    splitCharL sep x = [x] := by
  induction x with
  | nil => rfl
  | cons c rest ih =>
    have hc : ¬ c = sep := fun hc => h (hc ▸ List.mem_cons_self c rest)
    have hrest : sep ∉ rest := fun hm => h (List.mem_cons_of_mem c hm)
    simp only [splitCharL, if_neg hc, ih hrest]

theorem splitCharL_append (sep : Char) (x : List Char) (h : sep ∉ x) (l : List Char)
    {g : List Char} {gs : List (List Char)} (hl : splitCharL sep l = g :: gs) :
    splitCharL sep (x ++ l) = (x ++ g) :: gs := by
  induction x with
  | nil => simpa using hl
  | cons c rest ih =>
    have hc : ¬ c = sep := fun hc => h (hc ▸ List.mem_cons_self c rest)
    have hrest : sep ∉ rest := fun hm => h (List.mem_cons_of_mem c hm)
    simp only [List.cons_append, splitCharL, if_neg hc]
    rw [show rest.append l = rest ++ l from rfl, ih hrest]

theorem splitCharL_joinSlashL :
    ∀ L : List (List Char), L ≠ [] → (∀ g ∈ L, '/' ∉ g) →
      splitCharL '/' (joinSlashL L) = L := by
  intro L
  induction L with
  | nil => intro h; exact absurd rfl h
  | cons x rest ih =>
    intro _ h
    cases rest with
    | nil =>
      simpa [joinSlashL] using splitCharL_of_no_sep '/' x (h x (List.mem_cons_self x []))
    | cons y t =>
      have hx : '/' ∉ x := h x (List.mem_cons_self x (y :: t))
      have hrest : splitCharL '/' (joinSlashL (y :: t)) = y :: t :=
        ih (by simp) (fun g hg => h g (List.mem_cons_of_mem x hg))
      have hl : splitCharL '/' ('/' :: joinSlashL (y :: t)) = [] :: y :: t := by
        simp [splitCharL, hrest]
      show splitCharL '/' (x ++ '/' :: joinSlashL (y :: t)) = x :: y :: t
      rw [splitCharL_append '/' x hx _ hl]
      simp

/-- Rebuild a `String` from its own character list. -/
theorem String.mk_data (s : String) : String.mk s.data = s := by
  cases s
  rfl

/-- A canonical path segment: non-empty, not `.` or `..`, and without `/`
(what the normalization loop can ever produce, and what a working directory
installed by a successful `cd` always consists of). -/
def cleanSeg (s : String) : Prop :=
  ¬ s = "" ∧ ¬ s = "." ∧ ¬ s = ".." ∧ '/' ∉ s.data

instance (s : String) : Decidable (cleanSeg s) := by
  unfold cleanSeg
  infer_instance

theorem splitSlash_no_slash (path : String) : ∀ s ∈ splitSlash path, '/' ∉ s.data := by
  intro s hs
  simp only [splitSlash, List.mem_map] at hs
  obtain ⟨l, hl, rfl⟩ := hs
  exact splitCharL_no_sep '/' path.data l hl

theorem normSegs_cons (start : List String) (seg : String) (segs : List String) :
    normSegs start (seg :: segs) =
      normSegs
        (if seg = "" ∨ seg = "." then start
         else if seg = ".." then start.dropLast
         else start ++ [seg]) segs := rfl

theorem normSegs_append (start : List String) (l1 l2 : List String) :
    normSegs start (l1 ++ l2) = normSegs (normSegs start l1) l2 :=
  List.foldl_append _ _ _ _

theorem normSegs_clean_append (segs : List String) (start : List String)
    (h : ∀ s ∈ segs, ¬ s = "" ∧ ¬ s = "." ∧ ¬ s = "..") :
    normSegs start segs = start ++ segs := by
  induction segs generalizing start with
  | nil => simp [normSegs]
  | cons seg rest ih =>
    obtain ⟨h1, h2, h3⟩ := h seg (List.mem_cons_self seg rest)
    rw [normSegs_cons, if_neg (by tauto), if_neg h3,
      ih (start ++ [seg]) (fun s hs => h s (List.mem_cons_of_mem seg hs))]
    simp

theorem normSegs_all_clean (segs : List String) (start : List String)
    (hstart : ∀ s ∈ start, cleanSeg s) (hsegs : ∀ s ∈ segs, '/' ∉ s.data) :
    ∀ s ∈ normSegs start segs, cleanSeg s := by
  induction segs generalizing start with
  | nil => exact hstart
  | cons seg rest ih =>
    rw [normSegs_cons]
    apply ih
    · by_cases hskip : seg = "" ∨ seg = "."
      · rw [if_pos hskip]; exact hstart
      · rw [if_neg hskip]
        by_cases hdd : seg = ".."
        · rw [if_pos hdd]
          exact fun s hs => hstart s ((List.dropLast_sublist start).mem hs)
        · rw [if_neg hdd]
          intro s hs
          rcases List.mem_append.mp hs with h | h
          · exact hstart s h
          · have hseq : s = seg := by simpa using h
            subst hseq
            exact ⟨fun h => hskip (Or.inl h), fun h => hskip (Or.inr h), hdd,
              hsegs s (List.mem_cons_self s rest)⟩
    · exact fun s hs => hsegs s (List.mem_cons_of_mem seg hs)

theorem resolveParts_clean (C : List String) (P : String)
    (hC : ∀ s ∈ C, cleanSeg s) : ∀ s ∈ resolveParts C P, cleanSeg s := by
  unfold resolveParts rpStart
  apply normSegs_all_clean
  · split
    · intro s hs; simp at hs
    · exact hC
  · exact splitSlash_no_slash P

/-- Re-resolving a sequence of canonical segments as an absolute path
recovers exactly that sequence. -/
theorem resolveParts_of_clean (S : List String) (hclean : ∀ s ∈ S, cleanSeg s) :
    resolveParts [] ("/" ++ joinSlash S) = S := by
  have hdata : ("/" ++ joinSlash S).data = '/' :: joinSlashL (S.map String.data) := by
    rw [String.data_append]; rfl
  have hsw : startsWithSlash ("/" ++ joinSlash S) = true := by
    unfold startsWithSlash
    rw [hdata]
    rfl
  unfold resolveParts rpStart
  rw [if_pos hsw]
  unfold splitSlash
  rw [hdata]
  cases hS : S with
  | nil => simp only [List.map_nil, joinSlashL]; decide
  | cons s0 srest =>
    have hne : (s0 :: srest).map String.data ≠ [] := by simp
    have hnosl : ∀ g ∈ (s0 :: srest).map String.data, '/' ∉ g := by
      intro g hg
      simp only [List.mem_map] at hg
      obtain ⟨s, hs, rfl⟩ := hg
      exact (hclean s (hS ▸ hs)).2.2.2
    have hsplit0 : splitCharL '/' (joinSlashL ((s0 :: srest).map String.data)) =
        (s0 :: srest).map String.data :=
      splitCharL_joinSlashL _ hne hnosl
    have hsplitfull : splitCharL '/' ('/' :: joinSlashL ((s0 :: srest).map String.data)) =
        [] :: (s0 :: srest).map String.data := by
      simp only [List.map_cons] at hsplit0 ⊢
      simp [splitCharL, hsplit0]
    rw [hsplitfull]
    have hnilstr : String.mk [] = "" := rfl
    have hcomp : ((fun l => String.mk l) ∘ String.data) = id := by
      funext s
      exact String.mk_data s
    have hmk2 : (([] :: (s0 :: srest).map String.data).map (fun l => String.mk l)) =
        "" :: s0 :: srest := by
      simp only [List.map_cons, List.map_map, hcomp, List.map_id, hnilstr]
    rw [hmk2, normSegs_cons, if_pos (Or.inl rfl)]
    rw [normSegs_clean_append _ _ (fun s hs =>
      ⟨(hclean s (hS ▸ hs)).1, (hclean s (hS ▸ hs)).2.1, (hclean s (hS ▸ hs)).2.2.1⟩)]
    simp

/-- C4, general form: re-resolving the canonical output from the root
reproduces canonical segments and node, provided the working directory
consists of canonical segments. -/
theorem resolve_canon_general (root : VFSNode) (C : List String) (P : String)
    (hC : ∀ s ∈ C, cleanSeg s) :
    resolve root [] ("/" ++ joinSlash (resolve root C P).1) = resolve root C P := by
  have hnorm : resolveParts [] ("/" ++ joinSlash (resolveParts C P)) = resolveParts C P :=
    resolveParts_of_clean (resolveParts C P) (resolveParts_clean C P hC)
  show (resolveParts [] ("/" ++ joinSlash (resolveParts C P)),
      walk root (resolveParts [] ("/" ++ joinSlash (resolveParts C P)))) =
    (resolveParts C P, walk root (resolveParts C P))
  rw [hnorm]

/-- C4, amended.  Path resolution is idempotent under re-resolving its own
canonical output from the root whenever the working directory consists of
canonical segments (non-empty, not `.`/`..`, no `/`) — the form every working
directory reachable through `cd` has; and `..` above the root is absorbed:
`resolve([], "../../x")` equals `resolve([], "x")` over any tree. -/
theorem resolve_idempotent (root : VFSNode) (C : List String) (P : String)
    (hC : ∀ s ∈ C, cleanSeg s) :
    resolve root [] ("/" ++ joinSlash (resolve root C P).1) = resolve root C P ∧
    ∀ t : VFSNode, resolve t [] "../../x" = resolve t [] "x" := by
  refine ⟨resolve_canon_general root C P hC, ?_⟩
  intro t
  show (resolveParts [] "../../x", walk t (resolveParts [] "../../x")) =
    (resolveParts [] "x", walk t (resolveParts [] "x"))
  rw [show resolveParts [] "../../x" = ["x"] from by decide,
    show resolveParts [] "x" = ["x"] from by decide]

/-- C4 witness: the general idempotence theorem applied at the canonical
working directory `["usr"]` and path `"bin"` over a bare root. -/
theorem resolve_idempotent_witness :
    resolve (newDir 0o755) [] ("/" ++ joinSlash (resolve (newDir 0o755) ["usr"] "bin").1) =
      resolve (newDir 0o755) ["usr"] "bin" ∧
    ∀ t : VFSNode, resolve t [] "../../x" = resolve t [] "x" :=
  resolve_idempotent (newDir 0o755) ["usr"] "bin" (by decide)

/-- C4 counterexample: for the (non-canonical) working directory `[".."]`,
`resolve([".."], "x")` returns canonical segments `["..", "x"]`, but
re-resolving the absolute path formed from them yields `["x"]` — so the
claim's unrestricted quantification over working-directory segment sequences
fails. -/
theorem resolve_idempotent_cex :
    (resolve (newDir 0o755) [".."] "x").1 = ["..", "x"] ∧
    (resolve (newDir 0o755) [] ("/" ++ joinSlash (resolve (newDir 0o755) [".."] "x").1)).1
      = ["x"] ∧
    resolve (newDir 0o755) [] ("/" ++ joinSlash (resolve (newDir 0o755) [".."] "x").1) ≠
      resolve (newDir 0o755) [".."] "x" := by
  refine ⟨by decide, by decide, ?_⟩
  intro h
  have h1 := congrArg Prod.fst h
  rw [show (resolve (newDir 0o755) [] ("/" ++ joinSlash (resolve (newDir 0o755) [".."] "x").1)).1
      = ["x"] from by decide,
    show (resolve (newDir 0o755) [".."] "x").1 = ["..", "x"] from by decide] at h1
  exact absurd h1 (by decide)

/-! ## C8: `tac` line reversal -/

/-- Spec-side notion of "the file's lines": split the text on the newline
terminator and drop the final empty piece a trailing terminator produces, so
that terminator presence does not alter the line count. -/
def specLines (s : List Char) : List (List Char) :=
  if (splitCharL '\n' s).getLast? = some [] then (splitCharL '\n' s).dropLast
  else splitCharL '\n' s

/-- Reassemble newline-split groups into the chunks the `tac` regex yields:
every group but the last regains its terminator, and an empty final group
(trailing terminator) contributes no chunk. -/
def stitch : List (List Char) → List (List Char)
  | [] => []
  | [g] => if g = [] then [] else [g]
  | g :: g2 :: rest => (g ++ ['\n']) :: stitch (g2 :: rest)

theorem tacChunks_cons (c : Char) (rest : List Char) :
    tacChunks (c :: rest) =
      if c = '\n' then ['\n'] :: tacChunks rest
      else
        match tacChunks rest with
        | [] => [[c]]
        | ch :: r => (c :: ch) :: r := rfl

theorem splitCharL_cons (sep c : Char) (rest : List Char) :
    splitCharL sep (c :: rest) =
      if c = sep then [] :: splitCharL sep rest
      else
        match splitCharL sep rest with
        | [] => [[c]]
        | g :: gs => (c :: g) :: gs := rfl

theorem tacChunks_eq_stitch : ∀ s : List Char, tacChunks s = stitch (splitCharL '\n' s) := by
  intro s
  induction s with
  | nil => rfl
  | cons c rest ih =>
    rw [tacChunks_cons, splitCharL_cons]
    by_cases hc : c = '\n'
    · rw [if_pos hc, if_pos hc, ih]
      cases h : splitCharL '\n' rest with
      | nil => exact absurd h (splitCharL_ne_nil _ _)
      | cons g gs => simp [stitch]
    · rw [if_neg hc, if_neg hc, ih]
      cases h : splitCharL '\n' rest with
      | nil => exact absurd h (splitCharL_ne_nil _ _)
      | cons g gs =>
        cases gs with
        | nil =>
          by_cases hg : g = []
          · subst hg
            simp [stitch]
          · simp [stitch, hg]
        | cons g2 t =>
          simp [stitch]

theorem stitch_map_dropNL :
    ∀ gs : List (List Char), gs ≠ [] → (∀ g ∈ gs, '\n' ∉ g) →
      (stitch gs).map (fun ch => if ch.getLast? = some '\n' then ch.dropLast else ch) =
        if gs.getLast? = some [] then gs.dropLast else gs := by
  intro gs
  induction gs with
  | nil => intro h; exact absurd rfl h
  | cons g tail ih =>
    intro _ hno
    cases tail with
    | nil =>
      by_cases hg : g = []
      · subst hg
        simp [stitch]
      · have hnl : ¬ g.getLast? = some '\n' := by
          intro hlast
          exact hno g (List.mem_cons_self g []) (List.mem_of_mem_getLast? hlast)
        simp [stitch, hg, if_neg hnl]
    | cons g2 t =>
      have hstep : stitch (g :: g2 :: t) = (g ++ ['\n']) :: stitch (g2 :: t) := rfl
      rw [hstep]
      have hlast : (g ++ ['\n']).getLast? = some '\n' := by
        simp
      have ihres := ih (by simp) (fun x hx => hno x (List.mem_cons_of_mem g hx))
      simp only [List.map_cons, if_pos hlast, List.dropLast_concat, ihres]
      have hlast2 : (g :: g2 :: t).getLast? = (g2 :: t).getLast? := by
        simp [List.getLast?]
      rw [hlast2]
      by_cases hend : (g2 :: t).getLast? = some ([] : List Char)
      · rw [if_pos hend, if_pos hend]
        rfl
      · rw [if_neg hend, if_neg hend]

/-- C8.  For every text (the successfully UTF-8-decoded file content), `tac`
prints exactly the text's lines in reverse order — no terminator is
fabricated for a final line that lacks one, and a trailing terminator does
not add a spurious empty line; in particular `"a\nb"` and `"a\nb\n"` both
yield `["b", "a"]`. -/
theorem tac_reverses_lines :
    (∀ s : List Char, tacOutput s = (specLines s).reverse) ∧
    (tacOutput "a\nb".data).map (fun l => String.mk l) = ["b", "a"] ∧
    (tacOutput "a\nb\n".data).map (fun l => String.mk l) = ["b", "a"] := by
  refine ⟨?_, by decide, by decide⟩
  intro s
  unfold tacOutput specLines
  rw [tacChunks_eq_stitch, List.map_reverse,
    stitch_map_dropNL (splitCharL '\n' s) (splitCharL_ne_nil _ _)
      (fun g hg => splitCharL_no_sep '\n' s g hg)]

/-! ## C9: Script Runner stop/skip semantics -/

/-- The Script Runner contract, as a relation built from the spec's stopping
rules: an exhausted script completes; a line whose stripped form is empty or
starts with `#` is skipped (never executed); a terminating command ends the
run at once with no completion message and nothing further executed; a
failing command ends the run reporting that line's number; a successful
command's line is recorded and the run continues from the new state. -/
inductive RunsTo {σ : Type} (exec : String → σ → σ × Bool × Bool) :
    σ → List (Nat × String) → RunResult σ → Prop where
  | done : ∀ s, RunsTo exec s [] ⟨s, [], true, none⟩
  | skip : ∀ s n line rest r,
      (pyStrip line = "" ∨ (pyStrip line).data.head? = some '#') →
      RunsTo exec s rest r →
      RunsTo exec s ((n, line) :: rest) r
  | halt : ∀ s n line rest,
      ¬(pyStrip line = "" ∨ (pyStrip line).data.head? = some '#') →
      (exec line s).2.2 = true →
      RunsTo exec s ((n, line) :: rest) ⟨(exec line s).1, [(n, line)], false, none⟩
  | fail : ∀ s n line rest,
      ¬(pyStrip line = "" ∨ (pyStrip line).data.head? = some '#') →
      (exec line s).2.2 = false →
      (exec line s).2.1 = false →
      RunsTo exec s ((n, line) :: rest) ⟨(exec line s).1, [(n, line)], false, some n⟩
  | step : ∀ s n line rest r,
      ¬(pyStrip line = "" ∨ (pyStrip line).data.head? = some '#') →
      (exec line s).2.2 = false →
      (exec line s).2.1 = true →
      RunsTo exec (exec line s).1 rest r →
      RunsTo exec s ((n, line) :: rest) ⟨r.final, (n, line) :: r.execd, r.completed, r.stopped⟩

theorem processLines_cons {σ : Type} (exec : String → σ → σ × Bool × Bool) (s : σ)
    (n : Nat) (line : String) (rest : List (Nat × String)) :
    processLines exec s ((n, line) :: rest) =
      if pyStrip line = "" ∨ (pyStrip line).data.head? = some '#' then
        processLines exec s rest
      else if (exec line s).2.2 then ⟨(exec line s).1, [(n, line)], false, none⟩
      else if ¬ (exec line s).2.1 then ⟨(exec line s).1, [(n, line)], false, some n⟩
      else ⟨(processLines exec (exec line s).1 rest).final,
            (n, line) :: (processLines exec (exec line s).1 rest).execd,
            (processLines exec (exec line s).1 rest).completed,
            (processLines exec (exec line s).1 rest).stopped⟩ := rfl

theorem processLines_runsTo {σ : Type} (exec : String → σ → σ × Bool × Bool) :
    ∀ lines (s : σ), RunsTo exec s lines (processLines exec s lines) := by
  intro lines
  induction lines with
  | nil => intro s; exact RunsTo.done s
  | cons p rest ih =>
    intro s
    obtain ⟨n, line⟩ := p
    rw [processLines_cons]
    by_cases hskip : pyStrip line = "" ∨ (pyStrip line).data.head? = some '#'
    · rw [if_pos hskip]
      exact RunsTo.skip s n line rest _ hskip (ih s)
    · rw [if_neg hskip]
      by_cases hterm : (exec line s).2.2 = true
      · rw [if_pos hterm]
        exact RunsTo.halt s n line rest hskip hterm
      · rw [if_neg hterm]
        have hterm' : (exec line s).2.2 = false := by
          simpa using hterm
        by_cases hok : (exec line s).2.1 = true
        · rw [if_neg (fun h => h hok)]
          exact RunsTo.step s n line rest _ hskip hterm' hok (ih (exec line s).1)
        · rw [if_pos hok]
          have hok' : (exec line s).2.1 = false := by
            simpa using hok
          exact RunsTo.fail s n line rest hskip hterm' hok'

theorem processLines_no_skip {σ : Type} (exec : String → σ → σ × Bool × Bool) :
    ∀ lines (s : σ) p, p ∈ (processLines exec s lines).execd →
      ¬(pyStrip p.2 = "" ∨ (pyStrip p.2).data.head? = some '#') := by
  intro lines
  induction lines with
  | nil => intro s p hp; simp [processLines] at hp
  | cons q rest ih =>
    intro s p hp
    obtain ⟨n, line⟩ := q
    rw [processLines_cons] at hp
    by_cases hskip : pyStrip line = "" ∨ (pyStrip line).data.head? = some '#'
    · rw [if_pos hskip] at hp
      exact ih s p hp
    · rw [if_neg hskip] at hp
      by_cases hterm : (exec line s).2.2 = true
      · rw [if_pos hterm] at hp
        simp only [List.mem_singleton] at hp
        subst hp
        exact hskip
      · rw [if_neg hterm] at hp
        by_cases hok : (exec line s).2.1 = true
        · rw [if_neg (fun h => h hok)] at hp
          rcases List.mem_cons.mp hp with h | h
          · subst h
            exact hskip
          · exact ih (exec line s).1 p h
        · rw [if_pos hok] at hp
          simp only [List.mem_singleton] at hp
          subst hp
          exact hskip

/-- C9.  The Script Runner never executes past the first stopping point: for
every command layer `exec`, state and numbered line list, the run's outcome
satisfies the `RunsTo` relation (skipped lines are not executed; a
terminating command ends the run at once with no completion message; a
failing command ends the run reporting its 1-indexed line number; nothing
after the stopping line is executed), and every line that was executed is one
whose stripped form is neither empty nor `#`-prefixed. -/
theorem script_runner_stops {σ : Type} (exec : String → σ → σ × Bool × Bool)
    (s : σ) (lines : List (Nat × String)) :
    RunsTo exec s lines (processLines exec s lines) ∧
    ∀ p ∈ (processLines exec s lines).execd,
      ¬(pyStrip p.2 = "" ∨ (pyStrip p.2).data.head? = some '#') :=
  ⟨processLines_runsTo exec lines s, fun p hp => processLines_no_skip exec lines s p hp⟩

/-! ## C1: loader atomicity with respect to VFS state -/

/-- C1 counterexample: a load attempt whose second row is bad (empty
path/type) fails, yet the VFS has recorded the raw bytes and the name, and
the directory `a` built by the first row is retained under the VFS root —
so neither "the root is as it was before the load attempt" nor "the recorded
source bytes stay unset" holds, and `raw_bytes` is set without a build run
having completed without error. -/
theorem load_atomicity_cex :
    (load_from_csv VFS.init [1, 2, 3] "vfs.csv"
        [⟨"a", "dir", "", ""⟩, ⟨"", "", "", ""⟩]).2 =
      some "CSV: пустой path/type (строка 3)" ∧
    (load_from_csv VFS.init [1, 2, 3] "vfs.csv"
        [⟨"a", "dir", "", ""⟩, ⟨"", "", "", ""⟩]).1.raw_bytes = some [1, 2, 3] ∧
    (load_from_csv VFS.init [1, 2, 3] "vfs.csv"
        [⟨"a", "dir", "", ""⟩, ⟨"", "", "", ""⟩]).1.name = some "vfs.csv" ∧
    (lookupPath (load_from_csv VFS.init [1, 2, 3] "vfs.csv"
        [⟨"a", "dir", "", ""⟩, ⟨"", "", "", ""⟩]).1.root ["a"]).isSome = true ∧
    (lookupPath VFS.init.root ["a"]).isSome = false ∧
    (load_from_csv VFS.init [1, 2, 3] "vfs.csv"
        [⟨"a", "dir", "", ""⟩, ⟨"", "", "", ""⟩]).1.root ≠ VFS.init.root := by
  refine ⟨by decide, by decide, by decide, by decide, by decide, ?_⟩
  intro heq
  have h1 : (lookupPath (load_from_csv VFS.init [1, 2, 3] "vfs.csv"
      [⟨"a", "dir", "", ""⟩, ⟨"", "", "", ""⟩]).1.root ["a"]).isSome = true := by decide
  rw [heq] at h1
  exact absurd h1 (by decide)

/-- C1, amended.  `load_from_csv` records the raw bytes and display name
unconditionally, before any row is processed: after any load attempt —
successful or not — `_raw_bytes` and `_name` hold the attempt's input, and
on failure the partially built tree is retained as the VFS root (exhibited
by the counterexample); so the recorded source bytes are set iff a load
attempt has consumed the file, not iff a build run completed without
error. -/
theorem load_sets_raw_bytes_always (v : VFS) (data : List Nat) (name : String)
    (rows : List Row) :
    (load_from_csv v data name rows).1.raw_bytes = some data ∧
    (load_from_csv v data name rows).1.name = some name :=
  ⟨rfl, rfl⟩

/-! ## C2: path/type conflict detection -/

theorem lookupPath_cons (root : VFSNode) (s : String) (q : List String) :
    lookupPath root (s :: q) =
      match getEntry root.children s with
      | none => none
      | some c => lookupPath c q := rfl

theorem ensureDir_cons (fullParts : List String) (cur : VFSNode) (name : String)
    (rest : List String) :
    ensureDir fullParts cur (name :: rest) =
      match getEntry cur.children name with
      | none =>
        (match ensureDir fullParts (newDir 0o755) rest with
         | .error e => .error e
         | .ok child =>
           .ok (VFSNode.mk cur.kind (setEntry cur.children name child) cur.content cur.mode
             cur.mtime))
      | some node =>
        if node.kind ≠ .dir then
          .error ("Путь конфликтует с файлом: " ++ joinSlash fullParts)
        else
          match ensureDir fullParts node rest with
          | .error e => .error e
          | .ok child =>
            .ok (VFSNode.mk cur.kind (setEntry cur.children name child) cur.content cur.mode
              cur.mtime) := rfl

/-- The general conflict rule the builder actually implements: if every
proper prefix of `pre` designates an existing directory and the next
component `name` designates an existing non-directory, then `_ensure_dir`
fails with the error naming `"/".join(fullParts)` — its full argument. -/
theorem ensureDir_conflict (fullParts : List String) :
    ∀ (pre : List String) (root : VFSNode) (name : String) (rest : List String),
      (∀ q n, q.IsPrefix pre → lookupPath root q = some n → n.kind = .dir) →
      (∀ q, q.IsPrefix pre → (lookupPath root q).isSome = true) →
      (∃ n, lookupPath root (pre ++ [name]) = some n ∧ ¬ n.kind = .dir) →
      ensureDir fullParts root (pre ++ name :: rest) =
        .error ("Путь конфликтует с файлом: " ++ joinSlash fullParts) := by
  intro pre
  induction pre with
  | nil =>
    intro root name rest _ _ hconf
    obtain ⟨n, hn, hkind⟩ := hconf
    simp only [List.nil_append] at hn ⊢
    rw [lookupPath_cons] at hn
    cases hget : getEntry root.children name with
    | none => rw [hget] at hn; exact absurd hn (by simp)
    | some c =>
      rw [hget] at hn
      simp only [lookupPath] at hn
      cases hn
      rw [ensureDir_cons]
      simp only [hget]
      rw [if_pos hkind]
  | cons p ptail ih =>
    intro root name rest hdirs hsomes hconf
    have hp : (lookupPath root [p]).isSome = true :=
      hsomes [p] ⟨ptail, rfl⟩
    rw [lookupPath_cons] at hp
    cases hget : getEntry root.children p with
    | none => rw [hget] at hp; exact absurd hp (by simp)
    | some c =>
      have hcdir : c.kind = .dir := by
        have := hdirs [p] c ⟨ptail, rfl⟩
        rw [lookupPath_cons, hget] at this
        exact this rfl
      have hrec : ensureDir fullParts c (ptail ++ name :: rest) =
          .error ("Путь конфликтует с файлом: " ++ joinSlash fullParts) := by
        apply ih c name rest
        · intro q n hq hl
          have hlift : lookupPath root (p :: q) = some n := by
            rw [lookupPath_cons, hget]
            exact hl
          exact hdirs (p :: q) n (List.cons_prefix_cons.mpr ⟨rfl, hq⟩) hlift
        · intro q hq
          have := hsomes (p :: q) (List.cons_prefix_cons.mpr ⟨rfl, hq⟩)
          rw [lookupPath_cons, hget] at this
          exact this
        · obtain ⟨n, hn, hkind⟩ := hconf
          rw [show (p :: ptail) ++ [name] = p :: (ptail ++ [name]) from rfl,
            lookupPath_cons, hget] at hn
          exact ⟨n, hn, hkind⟩
      show ensureDir fullParts root (p :: (ptail ++ name :: rest)) = _
      rw [ensureDir_cons]
      simp only [hget]
      rw [if_neg (by simp [hcdir]), hrec]

/-- C2 counterexample: loading `["a", "file", ...]` then `["a/b", "dir", ...]`
yields the conflict error naming the full requested chain `a/b`, not the
conflicting component `a`; and a file row whose leaf already exists as a
directory silently overwrites it instead of failing. -/
theorem conflict_naming_cex :
    (load_from_csv VFS.init [] "v" [⟨"a", "file", "", "x"⟩, ⟨"a/b", "dir", "", ""⟩]).2 =
      some "Путь конфликтует с файлом: a/b" ∧
    (load_from_csv VFS.init [] "v" [⟨"a", "file", "", "x"⟩, ⟨"a/b", "dir", "", ""⟩]).2 ≠
      some "Путь конфликтует с файлом: a" ∧
    (load_from_csv VFS.init [] "v" [⟨"a", "dir", "", ""⟩, ⟨"a", "file", "", "hi"⟩]).2 =
      none ∧
    (lookupPath (load_from_csv VFS.init [] "v"
        [⟨"a", "dir", "", ""⟩, ⟨"a", "file", "", "hi"⟩]).1.root ["a"]).map VFSNode.kind =
      some .file := by
  exact ⟨by decide, by decide, by decide, by decide⟩

/-- C2, amended.  A path component that already exists as a file anywhere in
the directory chain being ensured is a hard construction error, but the
error names the full requested chain (`"/".join` of the `_ensure_dir`
argument) rather than the conflicting component: the claim's example yields
`Путь конфликтует с файлом: a/b`, naming `a/b`, not `a`.  A directory
already existing at a file row's leaf is not an error: the file row silently
overwrites the directory (shown by the counterexample). -/
theorem tree_conflict_detection :
    ((load_from_csv VFS.init [] "v" [⟨"a", "file", "", "x"⟩, ⟨"a/b", "dir", "", ""⟩]).2 =
      some "Путь конфликтует с файлом: a/b") ∧
    (∀ (fullParts pre : List String) (root : VFSNode) (name : String) (rest : List String),
      (∀ q n, q.IsPrefix pre → lookupPath root q = some n → n.kind = .dir) →
      (∀ q, q.IsPrefix pre → (lookupPath root q).isSome = true) →
      (∃ n, lookupPath root (pre ++ [name]) = some n ∧ ¬ n.kind = .dir) →
      ensureDir fullParts root (pre ++ name :: rest) =
        .error ("Путь конфликтует с файлом: " ++ joinSlash fullParts)) := by
  exact ⟨by decide, fun fullParts => ensureDir_conflict fullParts⟩

/-- C2 witness: the general conflict rule applied at a concrete root whose
child `a` is a file, for the chain `a/b`. -/
theorem tree_conflict_detection_witness :
    ensureDir ["a", "b"] (VFSNode.mk .dir [("a", newFile [] 0o644)] [] 0o755 0) ["a", "b"] =
      .error ("Путь конфликтует с файлом: " ++ joinSlash ["a", "b"]) := by
  have h := tree_conflict_detection.2 ["a", "b"] []
    (VFSNode.mk .dir [("a", newFile [] 0o644)] [] 0o755 0) "a" ["b"]
    (by
      intro q n hq hl
      have hq' : q = [] := List.prefix_nil.mp hq
      subst hq'
      simp only [lookupPath] at hl
      cases hl
      rfl)
    (by
      intro q hq
      have hq' : q = [] := List.prefix_nil.mp hq
      subst hq'
      rfl)
    ⟨newFile [] 0o644, rfl, by decide⟩
  exact h

/-! ## C3: row numbering of base64 decode failures -/

theorem loadRows_single (root : VFSNode) (i : Nat) (row : Row) :
    loadRows root i [row] = processRow root i row := by
  unfold loadRows
  cases h : processRow root i row with
  | mk r' oe =>
    cases oe with
    | none => simp [loadRows]
    | some e => simp

theorem loadRows_v3_single (root : VFSNode) (i : Nat) (row : Row) :
    loadRows_v3 root i [row] = processRow_v3 root i row := by
  unfold loadRows_v3
  cases h : processRow_v3 root i row with
  | mk r' oe =>
    cases oe with
    | none => simp [loadRows_v3]
    | some e => simp

theorem processRow_b64 (root : VFSNode) (i : Nat) (content : String) :
    processRow root i ⟨"f", "file", "base64", content⟩ =
      match decodeContent (pyLower (pyStrip "base64")) content i with
      | .error e1 => (root, some e1)
      | .ok bytes =>
        (updateAt root [] (fun n =>
          VFSNode.mk n.kind (setEntry n.children "f" (newFile bytes 0o644)) n.content n.mode
            n.mtime), none) := rfl

theorem processRow_v3_b64 (root : VFSNode) (i : Nat) (content : String) :
    processRow_v3 root i ⟨"f", "file", "base64", content⟩ =
      match decodeContent_v3 (pyLower (pyStrip "base64")) content i with
      | .error e1 => (root, some e1)
      | .ok bytes =>
        (updateAt root [] (fun n =>
          VFSNode.mk n.kind (setEntry n.children "f" (newFile bytes 0)) n.content n.mode
            n.mtime), none) := rfl

set_option maxRecDepth 8192 in
/-- C3 counterexample: in `Emulator_5` a file row whose base64 content fails
to decode aborts the load with the raw decoder error, which carries no row
number at all (in particular it never mentions `строка`). -/
theorem b64_rownum_cex :
    (load_from_csv VFS.init [] "v" [⟨"f", "file", "base64", "a"⟩]).2 =
      some "Invalid base64-encoded string: number of data characters (1) cannot be 1 more than a multiple of 4" ∧
    hasSub "Invalid base64-encoded string: number of data characters (1) cannot be 1 more than a multiple of 4"
      "строка" = false := by
  exact ⟨by decide, by decide⟩

/-- C3, amended.  A file row whose content fails to base64-decode is a fatal
error in both builders, but the row numbering differs from the claim:
`Emulator_5` propagates the decoder's own error with no row number, while
`Emulator_3` wraps it with the row's file line number counted with the
header (the first data row reports `строка 2`, not 1). -/
theorem b64_error_reporting (content : String) (bs : List Nat) (e : String)
    (ha : asciiEncode content = .ok bs) (hb : b64decode bs = .error e) :
    (load_from_csv VFS.init [] "v" [⟨"f", "file", "base64", content⟩]).2 = some e ∧
    (load_from_csv_v3 VFS.init [] "v" [⟨"f", "file", "base64", content⟩]).2 =
      some ("CSV: не удалось декодировать base64 (строка 2): " ++ e) := by
  have henc : pyLower (pyStrip "base64") = "base64" := by decide
  have hdec : decodeContent (pyLower (pyStrip "base64")) content 2 = .error e := by
    rw [henc]
    unfold decodeContent
    rw [if_neg (by decide), if_pos (by decide)]
    simp only [ha]
    exact hb
  have hmsg : "CSV: не удалось декодировать base64 (строка " ++ toString 2 ++ "): " ++ e =
      "CSV: не удалось декодировать base64 (строка 2): " ++ e := by
    have hext : ∀ a b : String, a.data = b.data → a = b := by
      intro a b h
      cases a
      cases b
      cases h
      rfl
    apply hext
    simp only [String.data_append]
    congr 1
  have hdec3 : decodeContent_v3 (pyLower (pyStrip "base64")) content 2 =
      .error ("CSV: не удалось декодировать base64 (строка 2): " ++ e) := by
    rw [henc]
    unfold decodeContent_v3
    rw [if_neg (by decide), if_pos (by decide)]
    simp only [ha, hb]
    rw [hmsg]
  constructor
  · show (loadRows VFS.init.root 2 [⟨"f", "file", "base64", content⟩]).2 = some e
    rw [loadRows_single, processRow_b64]
    simp only [hdec]
  · show (loadRows_v3 VFS.init.root 2 [⟨"f", "file", "base64", content⟩]).2 =
      some ("CSV: не удалось декодировать base64 (строка 2): " ++ e)
    rw [loadRows_v3_single, processRow_v3_b64]
    simp only [hdec3]

/-- C3 witness: the reporting theorem applied at content `"a"`, which fails
to decode in every CPython version. -/
theorem b64_error_reporting_witness :
    (load_from_csv VFS.init [] "v" [⟨"f", "file", "base64", "a"⟩]).2 =
      some "Invalid base64-encoded string: number of data characters (1) cannot be 1 more than a multiple of 4" ∧
    (load_from_csv_v3 VFS.init [] "v" [⟨"f", "file", "base64", "a"⟩]).2 =
      some ("CSV: не удалось декодировать base64 (строка 2): " ++
        "Invalid base64-encoded string: number of data characters (1) cannot be 1 more than a multiple of 4") :=
  b64_error_reporting "a" [97]
    "Invalid base64-encoded string: number of data characters (1) cannot be 1 more than a multiple of 4"
    rfl rfl



/-! ## C5/C6: Permission Engine clause semantics -/

/-- Decidable equality for `Except` results (not provided by core). -/
instance {ε α : Type} [DecidableEq ε] [DecidableEq α] : DecidableEq (Except ε α) := fun a b =>
  match a, b with
  | .error x, .error y =>
    if h : x = y then .isTrue (by rw [h]) else .isFalse (by intro hc; cases hc; exact h rfl)
  | .ok x, .ok y =>
    if h : x = y then .isTrue (by rw [h]) else .isFalse (by intro hc; cases hc; exact h rfl)
  | .error _, .ok _ => .isFalse (by intro hc; cases hc)
  | .ok _, .error _ => .isFalse (by intro hc; cases hc)

/-- The 3-bit field of a mode at one class position. -/
def classBits (m : Nat) (cls : Char) : Nat := (m >>> classShift cls) % 8

/-- The class mask selected by the three class flags (owner, group, other). -/
def selMask (su sg so : Bool) : Nat :=
  (if su then 0o700 else 0) ||| (if sg then 0o070 else 0) ||| (if so then 0o007 else 0)

/-- Pick the flag belonging to a class character. -/
def selOf (su sg so : Bool) (cls : Char) : Bool :=
  if cls = 'u' then su else if cls = 'g' then sg else so

/-- The unshifted permission bits a perm string computes (the class-independent
part of `bits_for`). -/
def permBits (m : Nat) (d : Bool) (perms : List Char) : Nat :=
  perms.foldl
    (fun mask ch =>
      if ch = 'r' then mask ||| 0o4
      else if ch = 'w' then mask ||| 0o2
      else if ch = 'x' then mask ||| 0o1
      else if ch = 'X' then
        if d || ((m &&& 0o111) != 0) then mask ||| 0o1 else mask
      else mask)
    0

/-- Spec-side per-class operator semantics: an unselected class is untouched;
`=` replaces the class bits with the computed bits, `+` OR-sets them, `-`
AND-clears them. -/
def opSpec (op : Char) (sel : Bool) (old B : Nat) : Nat :=
  if ¬ sel then old
  else if op = '=' then B
  else if op = '+' then old ||| B
  else clearBits old B

theorem shiftLeft_or_distrib (a b s : Nat) : (a ||| b) <<< s = (a <<< s) ||| (b <<< s) := by
  apply Nat.eq_of_testBit_eq
  intro i
  simp [Nat.testBit_shiftLeft, Nat.testBit_or, Bool.and_or_distrib_left]

/-- `bits_for` is the class-independent permission bits shifted to the class
position. -/
theorem bits_for_eq (m : Nat) (d : Bool) (perms : List Char) (cls : Char) :
    bits_for m d perms cls = permBits m d perms <<< classShift cls := by
  have key : ∀ (ps : List Char) (b : Nat),
      ps.foldl
        (fun mask ch =>
          if ch = 'r' then mask ||| (0o4 <<< classShift cls)
          else if ch = 'w' then mask ||| (0o2 <<< classShift cls)
          else if ch = 'x' then mask ||| (0o1 <<< classShift cls)
          else if ch = 'X' then
            if d || ((m &&& 0o111) != 0) then mask ||| (0o1 <<< classShift cls) else mask
          else mask)
        (b <<< classShift cls) =
      (ps.foldl
        (fun mask ch =>
          if ch = 'r' then mask ||| 0o4
          else if ch = 'w' then mask ||| 0o2
          else if ch = 'x' then mask ||| 0o1
          else if ch = 'X' then
            if d || ((m &&& 0o111) != 0) then mask ||| 0o1 else mask
          else mask)
        b) <<< classShift cls := by
    intro ps
    induction ps with
    | nil => intro b; rfl
    | cons ch pt ih =>
      intro b
      simp only [List.foldl_cons]
      by_cases h1 : ch = 'r'
      · rw [if_pos h1, if_pos h1, ← shiftLeft_or_distrib]
        exact ih (b ||| 4)
      · rw [if_neg h1, if_neg h1]
        by_cases h2 : ch = 'w'
        · rw [if_pos h2, if_pos h2, ← shiftLeft_or_distrib]
          exact ih (b ||| 2)
        · rw [if_neg h2, if_neg h2]
          by_cases h3 : ch = 'x'
          · rw [if_pos h3, if_pos h3, ← shiftLeft_or_distrib]
            exact ih (b ||| 1)
          · rw [if_neg h3, if_neg h3]
            by_cases h4 : ch = 'X'
            · rw [if_pos h4, if_pos h4]
              have hX : (if (d || ((m &&& 0o111) != 0)) = true
                    then (b <<< classShift cls) ||| (0o1 <<< classShift cls)
                    else b <<< classShift cls) =
                  (if (d || ((m &&& 0o111) != 0)) = true then b ||| 0o1 else b) <<<
                    classShift cls := by
                by_cases h5 : (d || ((m &&& 0o111) != 0)) = true
                · rw [if_pos h5, if_pos h5, ← shiftLeft_or_distrib]
                · rw [if_neg h5, if_neg h5]
              rw [hX]
              exact ih _
            · rw [if_neg h4, if_neg h4]
              exact ih b
  have hkey := key perms 0
  rw [Nat.zero_shiftLeft] at hkey
  exact hkey

theorem bits_for_o (m : Nat) (d : Bool) (perms : List Char) :
    bits_for m d perms 'o' = permBits m d perms := by
  rw [bits_for_eq]
  show permBits m d perms <<< 0 = permBits m d perms
  rw [Nat.shiftLeft_zero]

theorem permBits_lt (m : Nat) (d : Bool) (perms : List Char) : permBits m d perms < 8 := by
  have key : ∀ (ps : List Char) (b : Nat), b < 8 →
      ps.foldl
        (fun mask ch =>
          if ch = 'r' then mask ||| 0o4
          else if ch = 'w' then mask ||| 0o2
          else if ch = 'x' then mask ||| 0o1
          else if ch = 'X' then
            if d || ((m &&& 0o111) != 0) then mask ||| 0o1 else mask
          else mask)
        b < 8 := by
    intro ps
    induction ps with
    | nil => intro b hb; exact hb
    | cons ch pt ih =>
      intro b hb
      simp only [List.foldl_cons]
      apply ih
      have hor : ∀ k : Nat, k < 8 → b ||| k < 8 := by
        intro k hk
        have h8 : (8 : Nat) = 2 ^ 3 := by norm_num
        rw [h8] at hb hk ⊢
        exact Nat.or_lt_two_pow hb hk
      by_cases h1 : ch = 'r'
      · rw [if_pos h1]
        exact hor 4 (by norm_num)
      · rw [if_neg h1]
        by_cases h2 : ch = 'w'
        · rw [if_pos h2]
          exact hor 2 (by norm_num)
        · rw [if_neg h2]
          by_cases h3 : ch = 'x'
          · rw [if_pos h3]
            exact hor 1 (by norm_num)
          · rw [if_neg h3]
            by_cases h4 : ch = 'X'
            · rw [if_pos h4]
              by_cases h5 : (d || ((m &&& 0o111) != 0)) = true
              · rw [if_pos h5]
                exact hor 1 (by norm_num)
              · rw [if_neg h5]
                exact hb
            · rw [if_neg h4]
              exact hb
  exact key perms 0 (by norm_num)

theorem classMaskAll_cons (c : Char) (rest : List Char) :
    classMaskAll (c :: rest) =
      (if c = 'u' then 0o700 else if c = 'g' then 0o070
       else if c = 'o' then 0o007 else 0o777) ||| classMaskAll rest := by
  have key : ∀ (l : List Char) (a : Nat),
      l.foldl (fun m cls => m |||
        (if cls = 'u' then 0o700 else if cls = 'g' then 0o070
         else if cls = 'o' then 0o007 else 0o777)) a =
      a ||| l.foldl (fun m cls => m |||
        (if cls = 'u' then 0o700 else if cls = 'g' then 0o070
         else if cls = 'o' then 0o007 else 0o777)) 0 := by
    intro l
    induction l with
    | nil => intro a; simp
    | cons x xs ih =>
      intro a
      simp only [List.foldl_cons]
      rw [ih (a |||
          (if x = 'u' then 0o700 else if x = 'g' then 0o070
           else if x = 'o' then 0o007 else 0o777)),
        ih ((0 : Nat) |||
          (if x = 'u' then 0o700 else if x = 'g' then 0o070
           else if x = 'o' then 0o007 else 0o777)),
        Nat.zero_or, Nat.or_assoc]
  show List.foldl _ ((0 : Nat) ||| _) rest = _
  rw [key, Nat.zero_or]
  rfl

theorem selMask_or_u (su sg so : Bool) : 0o700 ||| selMask su sg so = selMask true sg so := by
  cases su <;> cases sg <;> cases so <;> decide

theorem selMask_or_g (su sg so : Bool) : 0o070 ||| selMask su sg so = selMask su true so := by
  cases su <;> cases sg <;> cases so <;> decide

theorem selMask_or_o (su sg so : Bool) : 0o007 ||| selMask su sg so = selMask su sg true := by
  cases su <;> cases sg <;> cases so <;> decide

theorem selMask_or_a (su sg so : Bool) :
    0o777 ||| selMask su sg so = selMask true true true := by
  cases su <;> cases sg <;> cases so <;> decide

/-- `class_mask_all` is exactly the union of the masks of the selected
classes. -/
theorem classMaskAll_eq (classes : List Char)
    (hcl : ∀ c ∈ classes, c = 'u' ∨ c = 'g' ∨ c = 'o' ∨ c = 'a') :
    classMaskAll classes =
      selMask (selClass classes 'u') (selClass classes 'g') (selClass classes 'o') := by
  induction classes with
  | nil => rfl
  | cons c rest ih =>
    have ihr := ih (fun x hx => hcl x (List.mem_cons_of_mem c hx))
    rw [classMaskAll_cons, ihr]
    rcases hcl c (List.mem_cons_self c rest) with h | h | h | h
    · subst h
      simp only [selClass, List.contains_cons]
      simp
      exact selMask_or_u _ _ _
    · subst h
      simp only [selClass, List.contains_cons]
      simp
      exact selMask_or_g _ _ _
    · subst h
      simp only [selClass, List.contains_cons]
      simp
      exact selMask_or_o _ _ _
    · subst h
      simp only [selClass, List.contains_cons]
      simp
      exact selMask_or_a _ _ _


theorem takeWhile_append_eq {p : Char → Bool} :
    ∀ (xs : List Char) (y : Char) (ys : List Char),
      (∀ c ∈ xs, p c = true) → p y = false →
      (xs ++ y :: ys).takeWhile p = xs ∧ (xs ++ y :: ys).dropWhile p = y :: ys := by
  intro xs
  induction xs with
  | nil =>
    intro y ys _ hy
    constructor <;> simp [List.takeWhile_cons, List.dropWhile_cons, hy]
  | cons x xt ih =>
    intro y ys hall hy
    have hx : p x = true := hall x (List.mem_cons_self x xt)
    obtain ⟨h1, h2⟩ := ih y ys (fun c hc => hall c (List.mem_cons_of_mem x hc)) hy
    constructor <;>
      simp [List.takeWhile_cons, List.dropWhile_cons, hx, h1, h2]

/-- `_chmod_apply_symbolic` on a well-formed clause, written out: the parsed
classes, operator and perm characters produce exactly the masked arithmetic
of lines 382-406. -/
theorem chmodApplySymbolic_parsed (m : Nat) (d : Bool) (classes : List Char) (op : Char)
    (perms : List Char)
    (hclasses : ∀ c ∈ classes, isClassChar c = true)
    (hclne : classes ≠ [])
    (hop : op = '+' ∨ op = '-' ∨ op = '=')
    (hperms : perms ≠ [])
    (hpc : ∀ c ∈ perms, c = 'r' ∨ c = 'w' ∨ c = 'x' ∨ c = 'X') :
    chmodApplySymbolic m (String.mk (classes ++ op :: perms)) d =
      .ok ((if op = '=' then
              clearBits m (classMaskAll classes) |||
                (((if selClass classes 'u' then bits_for m d perms 'u' else 0) |||
                  (if selClass classes 'g' then bits_for m d perms 'g' else 0) |||
                  (if selClass classes 'o' then bits_for m d perms 'o' else 0)) &&&
                  classMaskAll classes)
            else if op = '+' then
              m ||| ((if selClass classes 'u' then bits_for m d perms 'u' else 0) |||
                     (if selClass classes 'g' then bits_for m d perms 'g' else 0) |||
                     (if selClass classes 'o' then bits_for m d perms 'o' else 0))
            else
              clearBits m
                ((if selClass classes 'u' then bits_for m d perms 'u' else 0) |||
                 (if selClass classes 'g' then bits_for m d perms 'g' else 0) |||
                 (if selClass classes 'o' then bits_for m d perms 'o' else 0))) &&& 0o777) := by
  have hopc : isClassChar op = false := by
    rcases hop with h | h | h <;> subst h <;> rfl
  have hdata : (String.mk (classes ++ op :: perms)).data = classes ++ op :: perms := rfl
  obtain ⟨htake, hdrop⟩ := takeWhile_append_eq classes op perms hclasses hopc
  have hall : perms.all (fun c => decide (c = 'r' ∨ c = 'w' ∨ c = 'x' ∨ c = 'X')) = true := by
    rw [List.all_eq_true]
    intro c hc
    exact decide_eq_true (hpc c hc)
  simp only [chmodApplySymbolic, hdata, htake, hdrop]
  rw [if_neg hclne]
  rw [if_neg (not_not_intro hop), if_neg hperms, if_neg (not_not_intro hall)]

/-! Field-level bit algebra used to verify the chmod cores without any large
finite enumeration: every 9-bit quantity is handled through its three 3-bit
class fields. -/

theorem mod8_eq_and7 (x : Nat) : x % 8 = x &&& 7 := by
  simpa using (Nat.and_pow_two_sub_one_eq_mod x 3).symm

theorem shiftRight_or_distrib (x y s : Nat) : (x ||| y) >>> s = x >>> s ||| y >>> s := by
  apply Nat.eq_of_testBit_eq
  intro i
  simp

theorem shiftRight_and_distrib (x y s : Nat) : (x &&& y) >>> s = x >>> s &&& y >>> s := by
  apply Nat.eq_of_testBit_eq
  intro i
  simp

theorem and7_and_distrib (x y : Nat) : (x &&& y) &&& 7 = (x &&& 7) &&& (y &&& 7) := by
  apply Nat.eq_of_testBit_eq
  intro i
  simp [Bool.and_assoc, Bool.and_comm, Bool.and_left_comm]

theorem and7_of_lt (x : Nat) (h : x < 8) : x &&& 7 = x := by
  have h' : x < 2 ^ 3 := by simpa using h
  simpa using Nat.and_pow_two_sub_one_of_lt_two_pow h'

theorem and511_of_lt (x : Nat) (h : x < 512) : x &&& 511 = x := by
  have h' : x < 2 ^ 9 := by simpa using h
  simpa using Nat.and_pow_two_sub_one_of_lt_two_pow h'

theorem or_lt_512 (x y : Nat) (hx : x < 512) (hy : y < 512) : x ||| y < 512 := by
  have hx' : x < 2 ^ 9 := by simpa using hx
  have hy' : y < 2 ^ 9 := by simpa using hy
  simpa using Nat.or_lt_two_pow hx' hy'

theorem classBits_or (x y : Nat) (cls : Char) :
    classBits (x ||| y) cls = classBits x cls ||| classBits y cls := by
  unfold classBits
  rw [shiftRight_or_distrib, mod8_eq_and7, mod8_eq_and7, mod8_eq_and7,
    Nat.and_distrib_right]

theorem classBits_and (x y : Nat) (cls : Char) :
    classBits (x &&& y) cls = classBits x cls &&& classBits y cls := by
  unfold classBits
  rw [shiftRight_and_distrib, mod8_eq_and7, mod8_eq_and7, mod8_eq_and7,
    and7_and_distrib]

theorem classBits_lt_8 (x : Nat) (cls : Char) : classBits x cls < 8 :=
  Nat.mod_lt _ (by decide)

theorem classBits_u_eq (x : Nat) : classBits x 'u' = x / 64 % 8 := by
  simp [classBits, classShift, Nat.shiftRight_eq_div_pow]

theorem classBits_g_eq (x : Nat) : classBits x 'g' = x / 8 % 8 := by
  simp [classBits, classShift, Nat.shiftRight_eq_div_pow]

theorem classBits_o_eq (x : Nat) : classBits x 'o' = x % 8 := by
  simp [classBits, classShift]

/-- Clearing a sub-mask subtracts field by field: the subtrahend is a bitwise
subset of the minuend, so no borrow crosses a class boundary. -/
theorem classBits_clear (m k : Nat) (hm : m < 512) (cls : Char)
    (hcl : cls = 'u' ∨ cls = 'g' ∨ cls = 'o') :
    classBits (m - (m &&& k)) cls =
      classBits m cls - (classBits m cls &&& classBits k cls) := by
  have hu := classBits_and m k 'u'
  have hg := classBits_and m k 'g'
  have ho := classBits_and m k 'o'
  rw [classBits_u_eq, classBits_u_eq, classBits_u_eq] at hu
  rw [classBits_g_eq, classBits_g_eq, classBits_g_eq] at hg
  rw [classBits_o_eq, classBits_o_eq, classBits_o_eq] at ho
  have hule : (m &&& k) / 64 % 8 ≤ m / 64 % 8 := by rw [hu]; exact Nat.and_le_left
  have hgle : (m &&& k) / 8 % 8 ≤ m / 8 % 8 := by rw [hg]; exact Nat.and_le_left
  have hole : (m &&& k) % 8 ≤ m % 8 := by rw [ho]; exact Nat.and_le_left
  have hale : m &&& k ≤ m := Nat.and_le_left
  rcases hcl with rfl | rfl | rfl
  · rw [classBits_u_eq, classBits_u_eq, classBits_u_eq, ← hu]
    omega
  · rw [classBits_g_eq, classBits_g_eq, classBits_g_eq, ← hg]
    omega
  · rw [classBits_o_eq, classBits_o_eq, classBits_o_eq, ← ho]
    omega

theorem selMask_lt_512 (su sg so : Bool) : selMask su sg so < 512 := by
  cases su <;> cases sg <;> cases so <;> decide

theorem classBits_selMask (su sg so : Bool) (cls : Char)
    (hcl : cls = 'u' ∨ cls = 'g' ∨ cls = 'o') :
    classBits (selMask su sg so) cls = if selOf su sg so cls then 7 else 0 := by
  rcases hcl with rfl | rfl | rfl <;> cases su <;> cases sg <;> cases so <;> decide

theorem classBits_selShift (su sg so : Bool) (B : Nat) (hB : B < 8) (cls : Char)
    (hcl : cls = 'u' ∨ cls = 'g' ∨ cls = 'o') :
    classBits ((if su then B <<< 6 else 0) ||| (if sg then B <<< 3 else 0) |||
      (if so then B else 0)) cls = if selOf su sg so cls then B else 0 := by
  have h6 : B <<< 6 = B * 64 := by rw [Nat.shiftLeft_eq]
  have h3 : B <<< 3 = B * 8 := by rw [Nat.shiftLeft_eq]
  rw [classBits_or, classBits_or]
  rcases hcl with rfl | rfl | rfl
  · rw [classBits_u_eq, classBits_u_eq, classBits_u_eq]
    have e1 : B * 64 / 64 % 8 = B := by omega
    have e2 : B * 8 / 64 % 8 = 0 := by omega
    have e3 : B / 64 % 8 = 0 := by omega
    cases su <;> cases sg <;> cases so <;>
      simp [selOf, h6, h3, e1, e2, e3, hB]
  · rw [classBits_g_eq, classBits_g_eq, classBits_g_eq]
    have e1 : B * 64 / 8 % 8 = 0 := by omega
    have e2 : B * 8 / 8 % 8 = B := by omega
    have e3 : B / 8 % 8 = 0 := by omega
    cases su <;> cases sg <;> cases so <;>
      simp [selOf, h6, h3, e1, e2, e3, hB]
  · rw [classBits_o_eq, classBits_o_eq, classBits_o_eq]
    have e1 : B * 64 % 8 = 0 := by omega
    have e2 : B * 8 % 8 = 0 := by omega
    have e3 : B % 8 = B := by omega
    cases su <;> cases sg <;> cases so <;>
      simp [selOf, h6, h3, e1, e2, e3, hB]

theorem selShift_lt_512 (su sg so : Bool) (B : Nat) (hB : B < 8) :
    (if su then B <<< 6 else 0) ||| (if sg then B <<< 3 else 0) |||
      (if so then B else 0) < 512 := by
  have h6 : B <<< 6 = B * 64 := by rw [Nat.shiftLeft_eq]
  have h3 : B <<< 3 = B * 8 := by rw [Nat.shiftLeft_eq]
  refine or_lt_512 _ _ (or_lt_512 _ _ ?_ ?_) ?_
  · cases su
    · simp
    · rw [if_pos rfl, h6]; omega
  · cases sg
    · simp
    · rw [if_pos rfl, h3]; omega
  · cases so
    · simp
    · rw [if_pos rfl]; omega

theorem chmod_core_eq : ∀ su sg so : Bool, ∀ m, m < 512 → ∀ B, B < 8 →
    ∀ cls ∈ (['u', 'g', 'o'] : List Char),
      classBits ((clearBits m (selMask su sg so) |||
        (((if su then B <<< 6 else 0) ||| (if sg then B <<< 3 else 0) |||
          (if so then B else 0)) &&& selMask su sg so)) &&& 0o777) cls =
        opSpec '=' (selOf su sg so cls) (classBits m cls) B := by
  intro su sg so m hm B hB cls hcls
  simp at hcls
  have hclr512 : clearBits m (selMask su sg so) < 512 :=
    Nat.lt_of_le_of_lt (Nat.sub_le _ _) hm
  have hS512 : ((if su then B <<< 6 else 0) ||| (if sg then B <<< 3 else 0) |||
      (if so then B else 0)) &&& selMask su sg so < 512 :=
    Nat.lt_of_le_of_lt Nat.and_le_right (selMask_lt_512 su sg so)
  rw [and511_of_lt _ (or_lt_512 _ _ hclr512 hS512), classBits_or]
  unfold clearBits
  rw [classBits_clear m _ hm cls hcls, classBits_and,
    classBits_selShift su sg so B hB cls hcls, classBits_selMask su sg so cls hcls]
  have hf := classBits_lt_8 m cls
  cases hse : selOf su sg so cls
  · simp [opSpec]
  · rw [if_pos rfl, if_pos rfl, and7_of_lt _ hf, and7_of_lt _ hB, Nat.sub_self,
      Nat.zero_or]
    simp [opSpec]

theorem chmod_core_plus : ∀ su sg so : Bool, ∀ m, m < 512 → ∀ B, B < 8 →
    ∀ cls ∈ (['u', 'g', 'o'] : List Char),
      classBits ((m ||| ((if su then B <<< 6 else 0) ||| (if sg then B <<< 3 else 0) |||
          (if so then B else 0))) &&& 0o777) cls =
        opSpec '+' (selOf su sg so cls) (classBits m cls) B := by
  intro su sg so m hm B hB cls hcls
  simp at hcls
  rw [and511_of_lt _ (or_lt_512 _ _ hm (selShift_lt_512 su sg so B hB)), classBits_or,
    classBits_selShift su sg so B hB cls hcls]
  cases hse : selOf su sg so cls
  · simp [opSpec]
  · simp [opSpec]

theorem chmod_core_minus : ∀ su sg so : Bool, ∀ m, m < 512 → ∀ B, B < 8 →
    ∀ cls ∈ (['u', 'g', 'o'] : List Char),
      classBits ((clearBits m ((if su then B <<< 6 else 0) ||| (if sg then B <<< 3 else 0) |||
          (if so then B else 0))) &&& 0o777) cls =
        opSpec '-' (selOf su sg so cls) (classBits m cls) B := by
  intro su sg so m hm B hB cls hcls
  simp at hcls
  have hclr512 : clearBits m ((if su then B <<< 6 else 0) |||
      (if sg then B <<< 3 else 0) ||| (if so then B else 0)) < 512 :=
    Nat.lt_of_le_of_lt (Nat.sub_le _ _) hm
  rw [and511_of_lt _ hclr512]
  unfold clearBits
  rw [classBits_clear m _ hm cls hcls, classBits_selShift su sg so B hB cls hcls]
  cases hse : selOf su sg so cls
  · simp [opSpec]
  · simp [opSpec, clearBits]

/-- C5.  Symbolic clause application obeys the class/operator semantics: for
every well-formed clause `[classes]op perms` and mode below 0o777, the result
is masked to 9 bits, and each class's 3-bit field is replaced by the computed
permission bits under `=`, OR-extended under `+`, AND-cleared under `-` when
the class is selected, and untouched otherwise; in particular
`apply(0o644, "u+x", false) = 0o744`, `apply(0o777, "o-w", false) = 0o775`,
and `apply(0o000, "a=r", false) = 0o444`. -/
theorem chmod_symbolic_semantics (m : Nat) (hm : m < 512) (d : Bool)
    (classes : List Char) (op : Char) (perms : List Char)
    (hclasses : ∀ c ∈ classes, isClassChar c = true)
    (hclne : classes ≠ [])
    (hop : op = '+' ∨ op = '-' ∨ op = '=')
    (hperms : perms ≠ [])
    (hpc : ∀ c ∈ perms, c = 'r' ∨ c = 'w' ∨ c = 'x' ∨ c = 'X') :
    (∃ r, chmodApplySymbolic m (String.mk (classes ++ op :: perms)) d = .ok r ∧ r < 512 ∧
      ∀ cls ∈ (['u', 'g', 'o'] : List Char),
        classBits r cls =
          opSpec op (selClass classes cls) (classBits m cls) (bits_for m d perms 'o')) ∧
    chmodApplySymbolic 0o644 "u+x" false = .ok 0o744 ∧
    chmodApplySymbolic 0o777 "o-w" false = .ok 0o775 ∧
    chmodApplySymbolic 0o000 "a=r" false = .ok 0o444 := by
  refine ⟨?_, rfl, rfl, rfl⟩
  rw [chmodApplySymbolic_parsed m d classes op perms hclasses hclne hop hperms hpc]
  have hchars : ∀ c ∈ classes, c = 'u' ∨ c = 'g' ∨ c = 'o' ∨ c = 'a' := by
    intro c hc
    have h := hclasses c hc
    simp [isClassChar] at h
    tauto
  have hB := permBits_lt m d perms
  have hsm := classMaskAll_eq classes hchars
  have hu : bits_for m d perms 'u' = permBits m d perms <<< 6 := by
    rw [bits_for_eq]
    rfl
  have hg : bits_for m d perms 'g' = permBits m d perms <<< 3 := by
    rw [bits_for_eq]
    rfl
  have ho : bits_for m d perms 'o' = permBits m d perms := bits_for_o m d perms
  rw [hsm, hu, hg, ho]
  refine ⟨_, rfl, Nat.lt_succ_of_le Nat.and_le_right, ?_⟩
  intro cls hcl
  simp at hcl
  rcases hop with rfl | rfl | rfl
  · rw [if_neg (by decide), if_pos rfl]
    rcases hcl with rfl | rfl | rfl
    · exact chmod_core_plus _ _ _ m hm _ hB 'u' (by decide)
    · exact chmod_core_plus _ _ _ m hm _ hB 'g' (by decide)
    · exact chmod_core_plus _ _ _ m hm _ hB 'o' (by decide)
  · rw [if_neg (by decide), if_neg (by decide)]
    rcases hcl with rfl | rfl | rfl
    · exact chmod_core_minus _ _ _ m hm _ hB 'u' (by decide)
    · exact chmod_core_minus _ _ _ m hm _ hB 'g' (by decide)
    · exact chmod_core_minus _ _ _ m hm _ hB 'o' (by decide)
  · rw [if_pos rfl]
    rcases hcl with rfl | rfl | rfl
    · exact chmod_core_eq _ _ _ m hm _ hB 'u' (by decide)
    · exact chmod_core_eq _ _ _ m hm _ hB 'g' (by decide)
    · exact chmod_core_eq _ _ _ m hm _ hB 'o' (by decide)

/-- C5 witness: the clause semantics applied to `u+x` on mode 0o644. -/
theorem chmod_symbolic_semantics_witness :
    (∃ r, chmodApplySymbolic 0o644 (String.mk (['u'] ++ '+' :: ['x'])) false = .ok r ∧
      r < 512 ∧
      ∀ cls ∈ (['u', 'g', 'o'] : List Char),
        classBits r cls =
          opSpec '+' (selClass ['u'] cls) (classBits 0o644 cls)
            (bits_for 0o644 false ['x'] 'o')) ∧
    chmodApplySymbolic 0o644 "u+x" false = .ok 0o744 ∧
    chmodApplySymbolic 0o777 "o-w" false = .ok 0o775 ∧
    chmodApplySymbolic 0o000 "a=r" false = .ok 0o444 :=
  chmod_symbolic_semantics 0o644 (by decide) false ['u'] '+' ['x'] (by decide) (by decide)
    (by decide) (by decide) (by decide)

/-- C6 counterexample: `apply(0o644, "+X", true)` is 0o755, not the claimed
0o744 — the empty class list defaults to `a`, so the conditional execute bit
is granted to all three classes, not only the owner. -/
theorem chmod_X_cex :
    chmodApplySymbolic 0o644 "+X" true = .ok 0o755 ∧
    chmodApplySymbolic 0o644 "+X" true ≠ .ok 0o744 := by
  exact ⟨rfl, by decide⟩

/-- C6, amended.  `X` contributes the execute bit iff the target is a
directory or the mode at the start of the clause application has execute set
for any class: `bits_for` grants exactly `1 <<< shift` under that condition;
over every mode below 0o777, `+X` adds `0o111` under the condition and is
inert otherwise; across a clause list each clause sees its predecessor's
result (`u-x,u+X` on 0o100 ends at 0, the second clause seeing exec already
cleared); and in particular `apply(0o644, "+X", true) = 0o755` (not 0o744:
the empty class list defaults to `a`) and `apply(0o644, "+X", false) =
0o644`. -/
theorem chmod_X_conditional :
    (∀ (m : Nat) (d : Bool) (cls : Char), bits_for m d ['X'] cls =
      if d || ((m &&& 0o111) != 0) then 0o1 <<< classShift cls else 0) ∧
    (∀ m, m < 512 → ∀ d : Bool,
      chmodApplySymbolic m "+X" d =
        .ok (if d || ((m &&& 0o111) != 0) then m ||| 0o111 else m)) ∧
    applyClauses ["u-x", "u+X"] false 0o100 = .ok 0 ∧
    chmodApplySymbolic 0o100 "a=wX" false = .ok 0o333 ∧
    chmodApplySymbolic 0o644 "+X" true = .ok 0o755 ∧
    chmodApplySymbolic 0o644 "+X" false = .ok 0o644 := by
  refine ⟨?_, ?_, rfl, rfl, rfl, rfl⟩
  · intro m d cls
    have hstep : bits_for m d ['X'] cls =
        (if (d || ((m &&& 0o111) != 0)) = true then 0 ||| (0o1 <<< classShift cls)
         else 0) := rfl
    rw [hstep]
    by_cases h : (d || ((m &&& 0o111) != 0)) = true
    · rw [if_pos h, if_pos h, Nat.zero_or]
    · rw [if_neg h, if_neg h]
  · intro m hm d
    have hbf : ∀ cls : Char, bits_for m d ['X'] cls =
        if d || ((m &&& 0o111) != 0) then 0o1 <<< classShift cls else 0 := by
      intro cls
      have hstep : bits_for m d ['X'] cls =
          (if (d || ((m &&& 0o111) != 0)) = true then 0 ||| (0o1 <<< classShift cls)
           else 0) := rfl
      rw [hstep]
      by_cases h : (d || ((m &&& 0o111) != 0)) = true
      · rw [if_pos h, if_pos h, Nat.zero_or]
      · rw [if_neg h, if_neg h]
    have hstep2 : chmodApplySymbolic m "+X" d =
        .ok ((m ||| (bits_for m d ['X'] 'u' ||| bits_for m d ['X'] 'g' |||
          bits_for m d ['X'] 'o')) &&& 0o777) := rfl
    rw [hstep2, hbf, hbf, hbf]
    have h111 : ((0o1 <<< classShift 'u' ||| 0o1 <<< classShift 'g' |||
        0o1 <<< classShift 'o') : Nat) = 0o111 := by decide
    cases hc : (d || ((m &&& 0o111) != 0))
    · simp [and511_of_lt m hm]
    · simp only [eq_self_iff_true, if_true]
      rw [h111, and511_of_lt _ (or_lt_512 m 0o111 hm (by decide))]

/-- C6 witness: the `+X` theorem applied at mode 0o644 on a directory. -/
theorem chmod_X_conditional_witness :
    chmodApplySymbolic 0o644 "+X" true =
      .ok (if (true : Bool) || (((0o644 : Nat) &&& 0o111) != 0)
           then (0o644 : Nat) ||| 0o111 else 0o644) :=
  chmod_X_conditional.2.1 0o644 (by decide) true

/-! ## C7: recursive chmod applies per node -/

theorem getEntry_map (g : VFSNode → VFSNode) :
    ∀ (cs : List (String × VFSNode)) (s : String),
      getEntry (cs.map (fun nc => (nc.1, g nc.2))) s = (getEntry cs s).map g := by
  intro cs
  induction cs with
  | nil => intro s; rfl
  | cons nc rest ih =>
    intro s
    obtain ⟨n, c⟩ := nc
    by_cases h : n = s
    · simp [getEntry, h]
    · simp [getEntry, h, ih]

theorem chmodSetAllKids_map (f : Nat → Bool → Nat) :
    ∀ cs : List (String × VFSNode),
      chmodSetAllKids f cs = cs.map (fun nc => (nc.1, chmodSetAll f nc.2)) := by
  intro cs
  induction cs with
  | nil => rfl
  | cons nc rest ih =>
    obtain ⟨n, c⟩ := nc
    simp only [chmodSetAllKids, ih, List.map_cons]

theorem chmodSetAll_eq (f : Nat → Bool → Nat) (n : VFSNode) :
    chmodSetAll f n =
      if n.kind = .dir then
        VFSNode.mk n.kind (n.children.map (fun nc => (nc.1, chmodSetAll f nc.2))) n.content
          (f n.mode n.is_dir) n.mtime
      else
        VFSNode.mk n.kind n.children n.content (f n.mode n.is_dir) n.mtime := by
  cases n with
  | mk k cs content m t =>
    simp only [chmodSetAll, chmodSetAllKids_map, VFSNode.kind, VFSNode.children,
      VFSNode.content, VFSNode.mode, VFSNode.mtime, VFSNode.is_dir]

theorem chmodSetAll_kind (f : Nat → Bool → Nat) (n : VFSNode) :
    (chmodSetAll f n).kind = n.kind := by
  rw [chmodSetAll_eq]
  split <;> rfl

theorem chmodSetAll_mode (f : Nat → Bool → Nat) (n : VFSNode) :
    (chmodSetAll f n).mode = f n.mode n.is_dir := by
  rw [chmodSetAll_eq]
  split <;> rfl

theorem chmodSetAll_content (f : Nat → Bool → Nat) (n : VFSNode) :
    (chmodSetAll f n).content = n.content := by
  rw [chmodSetAll_eq]
  split <;> rfl

theorem chmodSetAll_children_dir (f : Nat → Bool → Nat) (n : VFSNode) (h : n.kind = .dir) :
    (chmodSetAll f n).children = n.children.map (fun nc => (nc.1, chmodSetAll f nc.2)) := by
  rw [chmodSetAll_eq, if_pos h]
  rfl

theorem chmodSetAll_children_file (f : Nat → Bool → Nat) (n : VFSNode)
    (h : ¬ n.kind = .dir) : (chmodSetAll f n).children = n.children := by
  rw [chmodSetAll_eq, if_neg h]
  rfl

theorem walk_cons (node : VFSNode) (s : String) (rest : List String) :
    walk node (s :: rest) =
      if node.is_dir then
        match getEntry node.children s with
        | none => none
        | some c => walk c rest
      else none := rfl

/-- The resolver walk through a recursively chmod-ed subtree finds exactly
the chmod-ed image of each node the original walk finds. -/
theorem walk_chmodSetAll (f : Nat → Bool → Nat) :
    ∀ (p : List String) (t : VFSNode),
      walk (chmodSetAll f t) p = (walk t p).map (chmodSetAll f) := by
  intro p
  induction p with
  | nil => intro t; rfl
  | cons s rest ih =>
    intro t
    rw [walk_cons, walk_cons]
    by_cases hd : t.kind = .dir
    · have hdir : (chmodSetAll f t).is_dir = true := by
        simp [VFSNode.is_dir, chmodSetAll_kind, hd]
      have hdir2 : t.is_dir = true := by
        simp [VFSNode.is_dir, hd]
      rw [if_pos hdir, if_pos hdir2, chmodSetAll_children_dir f t hd, getEntry_map]
      cases hget : getEntry t.children s with
      | none => simp
      | some c => simp [ih c]
    · have hdir : (chmodSetAll f t).is_dir = false := by
        simp [VFSNode.is_dir, chmodSetAll_kind, hd]
      have hdir2 : t.is_dir = false := by
        simp [VFSNode.is_dir, hd]
      rw [if_neg (by simp [hdir]), if_neg (by simp [hdir2])]
      rfl

def demoFile : VFSNode := newFile [] 0o644

def demoDir : VFSNode := VFSNode.mk .dir [("f", demoFile)] [] 0o755 0

def demoRoot : VFSNode := VFSNode.mk .dir [("d", demoDir)] [] 0o755 0

def chmodDemoState : EmuState := ⟨⟨demoRoot, none, none⟩, []⟩

set_option maxRecDepth 8192 in
/-- C7.  Recursive chmod applies the mode rewrite independently to every node
of the resolved subtree (the pre-order walk of `_chmod_walk`), evaluating each
node's own directory flag: on a directory target `-R` rewrites the whole
subtree (`chmodSet _ true` is `chmodSetAll` there), whatever node the
resolver walk reaches inside the subtree appears transformed with mode
`f old_mode own_is_dir` and unchanged kind; and concretely `chmod -R 700 /d`
on a root containing directory `d` with file `d/f` sets mode 0o700 on both
`/d` and `/d/f`. -/
theorem chmod_recursive_per_node :
    (∀ (f : Nat → Bool → Nat) (t : VFSNode), t.kind = .dir →
      chmodSet f true t = chmodSetAll f t) ∧
    (∀ (f : Nat → Bool → Nat) (t : VFSNode) (p : List String) (n : VFSNode),
      walk t p = some n →
      walk (chmodSetAll f t) p = some (chmodSetAll f n) ∧
      (chmodSetAll f n).mode = f n.mode n.is_dir ∧
      (chmodSetAll f n).kind = n.kind) ∧
    (cmd_chmod ["-R", "700", "/d"] chmodDemoState).2 = true ∧
    (lookupPath (cmd_chmod ["-R", "700", "/d"] chmodDemoState).1.vfs.root ["d"]).map
      VFSNode.mode = some 0o700 ∧
    (lookupPath (cmd_chmod ["-R", "700", "/d"] chmodDemoState).1.vfs.root ["d", "f"]).map
      VFSNode.mode = some 0o700 := by
  refine ⟨?_, ?_, by decide, by decide, by decide⟩
  · intro f t ht
    unfold chmodSet
    rw [if_pos ⟨rfl, ht⟩]
  · intro f t p n hw
    refine ⟨?_, chmodSetAll_mode f n, chmodSetAll_kind f n⟩
    rw [walk_chmodSetAll, hw]
    rfl

/-- C7 witness: the per-node theorem applied to the demo tree at path `d`. -/
theorem chmod_recursive_per_node_witness :
    walk (chmodSetAll (fun _ _ => 0o700) demoRoot) ["d"] =
      some (chmodSetAll (fun _ _ => 0o700) demoDir) ∧
    (chmodSetAll (fun _ _ => 0o700) demoDir).mode = 0o700 ∧
    (chmodSetAll (fun _ _ => 0o700) demoDir).kind = demoDir.kind := by
  have h := chmod_recursive_per_node.2.1 (fun _ _ => 0o700) demoRoot ["d"] demoDir rfl
  exact h


end Emulator

namespace Emulator

/-! ### C10: tree invariants preserved by every dispatched command -/

/-- The structural invariants of the node tree: every node reachable through
the children mappings has a mode within 0..0o777 and a populated children
mapping only when it is a directory. -/
def TreeInv (t : VFSNode) : Prop :=
  ∀ p n, lookupPath t p = some n →
    n.mode ≤ 511 ∧ (n.kind = NodeKind.file → n.children = [])

/-- Preservation of existing nodes: no node reachable in `t` is ever removed,
and only mode/mtime are rewritten in place — every node reachable in `t` is
still reachable at the same path in `t'`, with its kind and content
unchanged. -/
def Preserves (t t' : VFSNode) : Prop :=
  ∀ p n, lookupPath t p = some n →
    ∃ n', lookupPath t' p = some n' ∧ n'.kind = n.kind ∧ n'.content = n.content

theorem Preserves_refl (t : VFSNode) : Preserves t t :=
  fun _ n h => ⟨n, h, rfl, rfl⟩

theorem lookupPath_mk_cons (k : NodeKind) (cs : List (String × VFSNode))
    (cont : List Nat) (m t : Nat) (s : String) (rest : List String) :
    lookupPath (VFSNode.mk k cs cont m t) (s :: rest) =
      match getEntry cs s with
      | none => none
      | some c => lookupPath c rest := rfl

theorem updateAt_cons (t : VFSNode) (s : String) (rest : List String)
    (g : VFSNode → VFSNode) :
    updateAt t (s :: rest) g =
      match getEntry t.children s with
      | none => t
      | some c =>
        VFSNode.mk t.kind (setEntry t.children s (updateAt c rest g)) t.content t.mode
          t.mtime := rfl

theorem TreeInv_child (t c : VFSNode) (s : String) (ht : TreeInv t)
    (hget : getEntry t.children s = some c) : TreeInv c := by
  intro p n h
  apply ht (s :: p) n
  rw [lookupPath_cons, hget]
  exact h

theorem getEntry_setEntry_self :
    ∀ (cs : List (String × VFSNode)) (s : String) (v : VFSNode),
      getEntry (setEntry cs s v) s = some v := by
  intro cs
  induction cs with
  | nil => intro s v; simp [setEntry, getEntry]
  | cons nc rest ih =>
    intro s v
    obtain ⟨n, c⟩ := nc
    by_cases h : n = s
    · simp [setEntry, getEntry, h]
    · simp [setEntry, getEntry, h, ih]

theorem getEntry_setEntry_ne :
    ∀ (cs : List (String × VFSNode)) (s s' : String) (v : VFSNode), ¬ s' = s →
      getEntry (setEntry cs s v) s' = getEntry cs s' := by
  intro cs
  induction cs with
  | nil =>
    intro s s' v h
    simp only [setEntry, getEntry]
    rw [if_neg (fun h2 => h h2.symm)]
  | cons nc rest ih =>
    intro s s' v h
    obtain ⟨n, c⟩ := nc
    by_cases h2 : n = s
    · subst h2
      simp only [setEntry, if_pos rfl, getEntry]
      rw [if_neg (fun h3 => h h3.symm), if_neg (fun h3 => h h3.symm)]
    · simp only [setEntry, if_neg h2, getEntry]
      by_cases h3 : n = s'
      · rw [if_pos h3, if_pos h3]
      · rw [if_neg h3, if_neg h3]
        exact ih s s' v h

theorem walk_lookupPath :
    ∀ (p : List String) (t n : VFSNode), walk t p = some n → lookupPath t p = some n := by
  intro p
  induction p with
  | nil => intro t n h; exact h
  | cons s rest ih =>
    intro t n h
    rw [walk_cons] at h
    by_cases hd : t.is_dir = true
    · rw [if_pos hd] at h
      cases hget : getEntry t.children s with
      | none => rw [hget] at h; exact Option.noConfusion h
      | some c =>
        rw [hget] at h
        rw [lookupPath_cons, hget]
        exact ih c n h
    · rw [if_neg hd] at h
      exact Option.noConfusion h

theorem walk_append :
    ∀ (q1 q2 : List String) (t : VFSNode),
      walk t (q1 ++ q2) = (walk t q1).bind (fun n => walk n q2) := by
  intro q1
  induction q1 with
  | nil => intro q2 t; rfl
  | cons s rest ih =>
    intro q2 t
    rw [List.cons_append, walk_cons, walk_cons]
    by_cases hd : t.is_dir = true
    · rw [if_pos hd, if_pos hd]
      cases hget : getEntry t.children s with
      | none => rfl
      | some c => exact ih q2 c
    · rw [if_neg hd, if_neg hd]; rfl

theorem kind_eq_file_of_ne_dir (k : NodeKind) (h : ¬ k = NodeKind.dir) :
    k = NodeKind.file := by
  cases k with
  | dir => exact absurd rfl h
  | file => rfl

/-- `lookupPath` through a recursively chmod-ed subtree finds exactly the
chmod-ed image of each node, provided files have no children. -/
theorem lookupPath_chmodSetAll (f : Nat → Bool → Nat) :
    ∀ (p : List String) (t : VFSNode), TreeInv t →
      lookupPath (chmodSetAll f t) p = (lookupPath t p).map (chmodSetAll f) := by
  intro p
  induction p with
  | nil => intro t ht; rfl
  | cons s rest ih =>
    intro t ht
    rw [lookupPath_cons, lookupPath_cons]
    by_cases hd : t.kind = NodeKind.dir
    · rw [chmodSetAll_children_dir f t hd, getEntry_map]
      cases hget : getEntry t.children s with
      | none => rfl
      | some c => exact ih c (TreeInv_child t c s ht hget)
    · have hch : t.children = [] := (ht [] t rfl).2 (kind_eq_file_of_ne_dir t.kind hd)
      rw [chmodSetAll_children_file f t hd, hch]
      rfl

theorem TreeInv_chmodSetAll (f : Nat → Bool → Nat) (hf : ∀ m d, f m d ≤ 511)
    (t : VFSNode) (ht : TreeInv t) : TreeInv (chmodSetAll f t) := by
  intro p n h
  rw [lookupPath_chmodSetAll f p t ht] at h
  cases hl : lookupPath t p with
  | none => rw [hl] at h; exact Option.noConfusion h
  | some n0 =>
    rw [hl] at h
    have hn : chmodSetAll f n0 = n := Option.some.inj h
    subst hn
    obtain ⟨_, hch0⟩ := ht p n0 hl
    constructor
    · rw [chmodSetAll_mode]; exact hf _ _
    · intro hk
      have hk' : n0.kind = NodeKind.file := by rw [← chmodSetAll_kind f n0]; exact hk
      have hnd : ¬ n0.kind = NodeKind.dir := by rw [hk']; decide
      rw [chmodSetAll_children_file f n0 hnd]
      exact hch0 hk'

theorem Preserves_chmodSetAll (f : Nat → Bool → Nat) (t : VFSNode) (ht : TreeInv t) :
    Preserves t (chmodSetAll f t) := by
  intro p n h
  refine ⟨chmodSetAll f n, ?_, chmodSetAll_kind f n, chmodSetAll_content f n⟩
  rw [lookupPath_chmodSetAll f p t ht, h]
  rfl

/-- A top-only rewrite that keeps kind, children and content and installs a
mode within bounds preserves both invariants. -/
theorem modeEdit_good (t : VFSNode) (m' t' : Nat) (hm : m' ≤ 511) (ht : TreeInv t) :
    TreeInv (VFSNode.mk t.kind t.children t.content m' t') ∧
      Preserves t (VFSNode.mk t.kind t.children t.content m' t') := by
  constructor
  · intro p n h
    cases p with
    | nil =>
      have h2 : VFSNode.mk t.kind t.children t.content m' t' = n := Option.some.inj h
      subst h2
      exact ⟨hm, fun hk => (ht [] t rfl).2 hk⟩
    | cons s rest =>
      have h' : lookupPath t (s :: rest) = some n := h
      exact ht _ _ h'
  · intro p n h
    cases p with
    | nil =>
      have h2 : t = n := Option.some.inj h
      subst h2
      exact ⟨_, rfl, rfl, rfl⟩
    | cons s rest =>
      exact ⟨n, h, rfl, rfl⟩

theorem chmodSet_TreeInv (f : Nat → Bool → Nat) (hf : ∀ m d, f m d ≤ 511)
    (recursive : Bool) (t : VFSNode) (ht : TreeInv t) :
    TreeInv (chmodSet f recursive t) ∧ Preserves t (chmodSet f recursive t) := by
  unfold chmodSet
  by_cases hc : recursive = true ∧ t.kind = NodeKind.dir
  · rw [if_pos hc]
    exact ⟨TreeInv_chmodSetAll f hf t ht, Preserves_chmodSetAll f t ht⟩
  · rw [if_neg hc]
    exact modeEdit_good t (f t.mode t.is_dir) t.mtime (hf _ _) ht

/-- Rebuilding the node at one path with a transformation that preserves the
invariants (given the invariants of the node it rewrites) preserves the
invariants of the whole tree. -/
theorem updateAt_good (g : VFSNode → VFSNode) :
    ∀ (q : List String) (t : VFSNode), TreeInv t →
      (∀ sub, lookupPath t q = some sub → TreeInv sub →
        TreeInv (g sub) ∧ Preserves sub (g sub)) →
      TreeInv (updateAt t q g) ∧ Preserves t (updateAt t q g) := by
  intro q
  induction q with
  | nil =>
    intro t ht hg
    exact hg t rfl ht
  | cons s rest ih =>
    intro t ht hg
    rw [updateAt_cons]
    cases hget : getEntry t.children s with
    | none => exact ⟨ht, Preserves_refl t⟩
    | some c =>
      have hc : TreeInv c := TreeInv_child t c s ht hget
      have hgc : ∀ sub, lookupPath c rest = some sub → TreeInv sub →
          TreeInv (g sub) ∧ Preserves sub (g sub) := by
        intro sub hsub
        apply hg
        rw [lookupPath_cons, hget]
        exact hsub
      obtain ⟨hinv', hpres'⟩ := ih c hc hgc
      constructor
      · intro p n h
        cases p with
        | nil =>
          have h2 := Option.some.inj h
          subst h2
          refine ⟨(ht [] t rfl).1, ?_⟩
          intro hk
          have hch : t.children = [] := (ht [] t rfl).2 hk
          rw [hch] at hget
          exact Option.noConfusion hget
        | cons s' p' =>
          rw [lookupPath_mk_cons] at h
          by_cases hss : s' = s
          · subst hss
            rw [getEntry_setEntry_self] at h
            exact hinv' p' n h
          · rw [getEntry_setEntry_ne _ _ _ _ hss] at h
            exact ht (s' :: p') n h
      · intro p n h
        cases p with
        | nil =>
          have h2 := Option.some.inj h
          subst h2
          exact ⟨_, rfl, rfl, rfl⟩
        | cons s' p' =>
          by_cases hss : s' = s
          · subst hss
            rw [lookupPath_cons, hget] at h
            obtain ⟨n', hn', hk, hcont⟩ := hpres' p' n h
            refine ⟨n', ?_, hk, hcont⟩
            rw [lookupPath_mk_cons, getEntry_setEntry_self]
            exact hn'
          · refine ⟨n, ?_, rfl, rfl⟩
            rw [lookupPath_mk_cons, getEntry_setEntry_ne _ _ _ _ hss]
            exact h

theorem chmodSet_updateAt_good (f : Nat → Bool → Nat) (hf : ∀ m d, f m d ≤ 511)
    (recursive : Bool) (q : List String) (t : VFSNode) (ht : TreeInv t) :
    TreeInv (updateAt t q (chmodSet f recursive)) ∧
      Preserves t (updateAt t q (chmodSet f recursive)) :=
  updateAt_good (chmodSet f recursive) q t ht
    (fun sub _ hsub => chmodSet_TreeInv f hf recursive sub hsub)

/-! Clause-syntax errors of `_chmod_apply_symbolic` do not depend on the mode
or the directory flag, so once one node accepts the clause list every node
does, and the stored result is always masked to 9 bits. -/

theorem chmodApplySymbolic_ok_indep (clause : String) (m : Nat) (d : Bool) (r : Nat)
    (h : chmodApplySymbolic m clause d = .ok r) (m' : Nat) (d' : Bool) :
    ∃ r', chmodApplySymbolic m' clause d' = .ok r' := by
  cases hdrop : clause.data.dropWhile isClassChar with
  | nil =>
    simp only [chmodApplySymbolic, hdrop] at h
    exact Except.noConfusion h
  | cons op rest2 =>
    simp only [chmodApplySymbolic, hdrop] at h ⊢
    by_cases hop : ¬(op = '+' ∨ op = '-' ∨ op = '=')
    · rw [if_pos hop] at h; exact Except.noConfusion h
    · rw [if_neg hop] at h
      by_cases h2 : rest2 = []
      · rw [if_pos h2] at h; exact Except.noConfusion h
      · rw [if_neg h2] at h
        by_cases hall : rest2.all (fun c => decide (c = 'r' ∨ c = 'w' ∨ c = 'x' ∨ c = 'X')) = true
        · exact ⟨_, by rw [if_neg hop, if_neg h2, if_neg (not_not_intro hall)]⟩
        · rw [if_pos hall] at h
          exact Except.noConfusion h

theorem foldlM_except_cons {α σ ε : Type} (g : σ → α → Except ε σ) (b : σ) (a : α)
    (l : List α) :
    List.foldlM g b (a :: l) = g b a >>= fun b' => List.foldlM g b' l := rfl

theorem foldlM_clauses_indep (d d' : Bool) :
    ∀ (clauses : List String) (m m' r : Nat),
      List.foldlM (fun cur clause => chmodApplySymbolic cur clause d) m clauses = .ok r →
      ∃ r', List.foldlM (fun cur clause => chmodApplySymbolic cur clause d') m' clauses =
        .ok r' := by
  intro clauses
  induction clauses with
  | nil => intro m m' r _; exact ⟨m', rfl⟩
  | cons c cl ih =>
    intro m m' r h
    rw [foldlM_except_cons] at h
    cases hc : chmodApplySymbolic m c d with
    | error e =>
      rw [hc] at h
      exact Except.noConfusion h
    | ok m1 =>
      rw [hc] at h
      obtain ⟨m1', hm1'⟩ := chmodApplySymbolic_ok_indep c m d m1 hc m' d'
      obtain ⟨r', hr'⟩ := ih m1 m1' r h
      refine ⟨r', ?_⟩
      rw [foldlM_except_cons, hm1']
      exact hr'

theorem applyClauses_ok_le (clauses : List String) (d : Bool) (m r : Nat)
    (h : applyClauses clauses d m = .ok r) : r ≤ 511 := by
  unfold applyClauses at h
  cases hf : List.foldlM (fun cur clause => chmodApplySymbolic cur clause d) m clauses with
  | error e => rw [hf] at h; exact Except.noConfusion h
  | ok cur =>
    rw [hf] at h
    have h2 : cur &&& 511 = r := Except.ok.inj h
    rw [← h2]
    exact Nat.and_le_right

theorem applyClauses_ok_indep (clauses : List String) (d : Bool) (m r : Nat)
    (h : applyClauses clauses d m = .ok r) (d' : Bool) (m' : Nat) :
    ∃ r', applyClauses clauses d' m' = .ok r' := by
  unfold applyClauses at h ⊢
  cases hf : List.foldlM (fun cur clause => chmodApplySymbolic cur clause d) m clauses with
  | error e => rw [hf] at h; exact Except.noConfusion h
  | ok cur =>
    obtain ⟨r2, hr2⟩ := foldlM_clauses_indep d d' clauses m m' cur hf
    rw [hr2]
    exact ⟨r2 &&& 0o777, rfl⟩

theorem applyClausesD_le (clauses : List String) (d0 : Bool) (m0 r0 : Nat)
    (hguard : applyClauses clauses d0 m0 = .ok r0) :
    ∀ m d, applyClausesD clauses m d ≤ 511 := by
  intro m d
  unfold applyClausesD
  cases h : applyClauses clauses d m with
  | ok r => exact applyClauses_ok_le clauses d m r h
  | error e =>
    obtain ⟨r', hr'⟩ := applyClauses_ok_indep clauses d0 m0 r0 hguard d m
    rw [h] at hr'
    exact Except.noConfusion hr'

/-! The read-only commands leave the state (or at least the VFS) untouched. -/

theorem cmd_ls_fst (args : List String) (s : EmuState) : (cmd_ls args s).1 = s := by
  unfold cmd_ls
  split
  · rfl
  · split <;> (dsimp only; split <;> rfl)

theorem cmd_cd_vfs (args : List String) (s : EmuState) : (cmd_cd args s).1.vfs = s.vfs := by
  unfold cmd_cd
  split
  · split
    · split <;> rfl
    · rfl
  · rfl

theorem cmd_tac_fst (args : List String) (s : EmuState) : (cmd_tac args s).1 = s := by
  unfold cmd_tac
  split
  · split
    · rfl
    · split
      · rfl
      · split <;> rfl
  · rfl

/-! The path algebra needed for touch's create branch: the resolver's
canonical segments are the parent segments plus the basename. -/

theorem normSegs_skip_filter :
    ∀ (segs : List String) (start : List String),
      normSegs start segs =
        normSegs start (segs.filter (fun s => ¬(s = "" ∨ s = "."))) := by
  intro segs
  induction segs with
  | nil => intro start; rfl
  | cons seg rest ih =>
    intro start
    have hpred : ∀ l : List String,
        List.filter (fun s => decide ¬(s = "" ∨ s = ".")) (seg :: l) =
          if seg = "" ∨ seg = "." then List.filter (fun s => decide ¬(s = "" ∨ s = ".")) l
          else seg :: List.filter (fun s => decide ¬(s = "" ∨ s = ".")) l := by
      intro l
      by_cases hskip : seg = "" ∨ seg = "."
      · rw [if_pos hskip]
        rcases hskip with h | h <;> subst h <;> simp
      · rw [if_neg hskip]
        exact List.filter_cons_of_pos (decide_eq_true hskip)
    rw [normSegs_cons, hpred]
    by_cases hskip : seg = "" ∨ seg = "."
    · rw [if_pos hskip, if_pos hskip]
      exact ih start
    · rw [if_neg hskip, if_neg hskip, normSegs_cons, if_neg hskip]
      exact ih _

theorem resolveParts_eq_normSegs_rpSegs (cwd : List String) (path : String) :
    resolveParts cwd path = normSegs (rpStart cwd path) (rpSegs path) := by
  unfold resolveParts rpSegs
  exact normSegs_skip_filter (splitSlash path) (rpStart cwd path)

theorem resolveParts_parent_base (cwd : List String) (path : String) (bn : String)
    (hlast : (rpSegs path).getLast? = some bn) :
    resolveParts cwd path =
      if bn = "" ∨ bn = "." then rpParts cwd path
      else if bn = ".." then (rpParts cwd path).dropLast
      else rpParts cwd path ++ [bn] := by
  have hne : rpSegs path ≠ [] := by
    intro h0
    rw [h0] at hlast
    exact Option.noConfusion hlast
  have hsplit : (rpSegs path).dropLast ++ [bn] = rpSegs path := by
    have h2 := List.dropLast_append_getLast hne
    rw [List.getLast?_eq_getLast _ hne] at hlast
    have h3 := Option.some.inj hlast
    rw [h3] at h2
    exact h2
  rw [resolveParts_eq_normSegs_rpSegs, ← hsplit, normSegs_append]
  rfl

/-! The two writing commands. -/

theorem cmd_chmod_good (args : List String) (s : EmuState) (hinv : TreeInv s.vfs.root) :
    TreeInv (cmd_chmod args s).1.vfs.root ∧
      Preserves s.vfs.root (cmd_chmod args s).1.vfs.root := by
  cases args with
  | nil => exact ⟨hinv, Preserves_refl _⟩
  | cons a0 rest =>
    simp only [cmd_chmod]
    split
    · -- [mode_spec, target] reached
      split
      · exact ⟨hinv, Preserves_refl _⟩
      · -- target resolved
        split
        · exact chmodSet_updateAt_good _ (fun _ _ => Nat.and_le_right) _ _ _ hinv
        · split
          · exact ⟨hinv, Preserves_refl _⟩
          · split
            · exact ⟨hinv, Preserves_refl _⟩
            · next r0 hguard =>
              exact chmodSet_updateAt_good _
                (applyClausesD_le _ _ _ _ hguard) _ _ _ hinv
    · exact ⟨hinv, Preserves_refl _⟩

theorem cmd_touch_good (now : Nat) (args : List String) (s : EmuState)
    (hinv : TreeInv s.vfs.root) :
    TreeInv (cmd_touch now args s).1.vfs.root ∧
      Preserves s.vfs.root (cmd_touch now args s).1.vfs.root := by
  cases args with
  | nil => exact ⟨hinv, Preserves_refl _⟩
  | cons target rest =>
    cases rest with
    | cons b bs => exact ⟨hinv, Preserves_refl _⟩
    | nil =>
      simp only [cmd_touch]
      split
      · next _x1 _x2 parent bn heq1 heq2 =>
        split
        · exact ⟨hinv, Preserves_refl _⟩
        · next hpd =>
          have hpd' : parent.is_dir = true := by
            by_cases h : parent.is_dir = true
            · exact h
            · exact absurd h hpd
          have hpk : parent.kind = NodeKind.dir := of_decide_eq_true hpd'
          split
          · -- existing target: refresh mtime only
            exact updateAt_good _ _ _ hinv
              (fun sub _ hsub => modeEdit_good sub sub.mode now (hsub [] sub rfl).1 hsub)
          · next heq3 =>
            -- create branch
            cases hlast : (rpSegs target).getLast? with
            | none =>
              unfold resolve_parent at heq1
              rw [hlast] at heq1
              exact Option.noConfusion heq1
            | some bn0 =>
              unfold resolve_parent at heq1 heq2
              rw [hlast] at heq1 heq2
              have hbneq : bn = bn0 := (Option.some.inj heq2).symm
              subst hbneq
              have hw : walk s.vfs.root (rpParts s.cwd_parts target) = some parent := heq1
              have hres : walk s.vfs.root (resolveParts s.cwd_parts target) = none := heq3
              have hmem : bn ∈ rpSegs target :=
                List.mem_of_mem_getLast? (Option.mem_def.mpr hlast)
              have hbn : ¬(bn = "" ∨ bn = ".") :=
                of_decide_eq_true (List.mem_filter.mp hmem).2
              have hrp := resolveParts_parent_base s.cwd_parts target bn hlast
              rw [if_neg hbn] at hrp
              by_cases hdd : bn = ".."
              · -- the create branch is unreachable for a ".." basename
                exfalso
                rw [if_pos hdd] at hrp
                rw [hrp] at hres
                rcases List.eq_nil_or_concat (rpParts s.cwd_parts target) with h0 | ⟨q, a, hqa⟩
                · rw [h0] at hres
                  exact Option.noConfusion hres
                · rw [List.concat_eq_append] at hqa
                  rw [hqa] at hw hres
                  rw [List.dropLast_concat] at hres
                  rw [walk_append] at hw
                  rw [hres] at hw
                  exact Option.noConfusion hw
              · rw [if_neg hdd] at hrp
                rw [hrp, walk_append, hw] at hres
                have h1 : walk parent [bn] = none := hres
                rw [walk_cons, if_pos hpd'] at h1
                cases hget : getEntry parent.children bn with
                | some c =>
                  rw [hget] at h1
                  exact Option.noConfusion h1
                | none =>
                  have hfst : (resolve_parent s.vfs.root s.cwd_parts target).1 =
                      rpParts s.cwd_parts target := by
                    unfold resolve_parent
                    rw [hlast]
                  rw [hfst]
                  apply updateAt_good _ _ _ hinv
                  intro sub hlook hsub
                  have hlp : lookupPath s.vfs.root (rpParts s.cwd_parts target) =
                      some parent := walk_lookupPath _ _ _ hw
                  rw [hlook] at hlp
                  have hsp : sub = parent := Option.some.inj hlp
                  subst hsp
                  constructor
                  · intro p n h
                    cases p with
                    | nil =>
                      have h2 := Option.some.inj h
                      subst h2
                      refine ⟨(hsub [] sub rfl).1, ?_⟩
                      intro hk
                      have hk' : sub.kind = NodeKind.file := hk
                      rw [hpk] at hk'
                      exact NodeKind.noConfusion hk'
                    | cons s' p' =>
                      rw [lookupPath_mk_cons] at h
                      by_cases hsb : s' = bn
                      · subst hsb
                        rw [getEntry_setEntry_self] at h
                        have h2 : lookupPath (newFile [] 0o644 now) p' = some n := h
                        cases p' with
                        | nil =>
                          have h3 := Option.some.inj h2
                          subst h3
                          exact ⟨(by decide : (420 : Nat) ≤ 511), fun _ => rfl⟩
                        | cons s'' p'' => exact Option.noConfusion h2
                      · rw [getEntry_setEntry_ne _ _ _ _ hsb] at h
                        exact hsub (s' :: p') n h
                  · intro p n h
                    cases p with
                    | nil =>
                      have h2 := Option.some.inj h
                      subst h2
                      exact ⟨_, rfl, rfl, rfl⟩
                    | cons s' p' =>
                      by_cases hsb : s' = bn
                      · subst hsb
                        rw [lookupPath_cons, hget] at h
                        exact Option.noConfusion h
                      · refine ⟨n, ?_, rfl, rfl⟩
                        rw [lookupPath_mk_cons, getEntry_setEntry_ne _ _ _ _ hsb]
                        exact h
      · exact ⟨hinv, Preserves_refl _⟩

/-- C10.  Every command executed through the dispatcher preserves the tree
invariants: every node reachable from the root keeps a mode in 0..0o777 and a
children mapping populated only on directory nodes, and no existing node is
ever removed — every previously reachable node is still reachable at its path
with its kind and content unchanged (commands only read nodes, add new file
nodes via touch, or rewrite mode/mtime in place). -/
theorem dispatch_preserves_tree (now : Nat) (tokens : List String) (s : EmuState)
    (hinv : TreeInv s.vfs.root) :
    TreeInv (dispatch now tokens s).1.vfs.root ∧
      Preserves s.vfs.root (dispatch now tokens s).1.vfs.root := by
  cases tokens with
  | nil => exact ⟨hinv, Preserves_refl _⟩
  | cons cmd args =>
    simp only [dispatch]
    by_cases h1 : cmd = "ls"
    · rw [if_pos h1]
      show TreeInv (cmd_ls args s).1.vfs.root ∧ Preserves s.vfs.root (cmd_ls args s).1.vfs.root
      rw [cmd_ls_fst]
      exact ⟨hinv, Preserves_refl _⟩
    · rw [if_neg h1]
      by_cases h2 : cmd = "cd"
      · rw [if_pos h2]
        show TreeInv (cmd_cd args s).1.vfs.root ∧
          Preserves s.vfs.root (cmd_cd args s).1.vfs.root
        rw [cmd_cd_vfs]
        exact ⟨hinv, Preserves_refl _⟩
      · rw [if_neg h2]
        by_cases h3 : cmd = "date"
        · rw [if_pos h3]
          exact ⟨hinv, Preserves_refl _⟩
        · rw [if_neg h3]
          by_cases h4 : cmd = "tac"
          · rw [if_pos h4]
            show TreeInv (cmd_tac args s).1.vfs.root ∧
              Preserves s.vfs.root (cmd_tac args s).1.vfs.root
            rw [cmd_tac_fst]
            exact ⟨hinv, Preserves_refl _⟩
          · rw [if_neg h4]
            by_cases h5 : cmd = "touch"
            · rw [if_pos h5]
              show TreeInv (cmd_touch now args s).1.vfs.root ∧
                Preserves s.vfs.root (cmd_touch now args s).1.vfs.root
              exact cmd_touch_good now args s hinv
            · rw [if_neg h5]
              by_cases h6 : cmd = "chmod"
              · rw [if_pos h6]
                show TreeInv (cmd_chmod args s).1.vfs.root ∧
                  Preserves s.vfs.root (cmd_chmod args s).1.vfs.root
                exact cmd_chmod_good args s hinv
              · rw [if_neg h6]
                by_cases h7 : cmd = "vfs-info"
                · rw [if_pos h7]
                  exact ⟨hinv, Preserves_refl _⟩
                · rw [if_neg h7]
                  by_cases h8 : cmd = "pwd"
                  · rw [if_pos h8]
                    exact ⟨hinv, Preserves_refl _⟩
                  · rw [if_neg h8]
                    by_cases h9 : cmd = "exit"
                    · rw [if_pos h9]
                      exact ⟨hinv, Preserves_refl _⟩
                    · rw [if_neg h9]
                      exact ⟨hinv, Preserves_refl _⟩

/-- Closed instance: on the freshly initialised VFS (a bare 0o755 root
directory), a `touch a` dispatched at time 7 keeps both invariants. -/
theorem dispatch_preserves_tree_witness :
    TreeInv VFS.init.root ∧
      (TreeInv (dispatch 7 ["touch", "a"] ⟨VFS.init, []⟩).1.vfs.root ∧
        Preserves (⟨VFS.init, []⟩ : EmuState).vfs.root
          (dispatch 7 ["touch", "a"] ⟨VFS.init, []⟩).1.vfs.root) := by
  have h0 : TreeInv VFS.init.root := by
    intro p n h
    cases p with
    | nil =>
      have h2 : newDir 0o755 = n := Option.some.inj h
      subst h2
      exact ⟨(by decide : (493 : Nat) ≤ 511), fun _ => rfl⟩
    | cons a as => exact Option.noConfusion h
  exact ⟨h0, dispatch_preserves_tree 7 ["touch", "a"] ⟨VFS.init, []⟩ h0⟩

end Emulator
